import Mathlib

/-!
Verification development for the caching / admission-control engine of the
repository (files `backend/app/core/cache.py` and
`backend/app/services/cache_strategy.py`).

The Python code is shallowly embedded: every `def` below mirrors a function
or method of the source, state (the `CacheManager`, the `MultiLevelCache`,
the limiter window) is passed explicitly, wall-clock reads
(`datetime.utcnow()`) become an explicit `now` argument, and Python
exceptions become explicit control flow (`Except` or dedicated branches)
exactly where the source has `try`/`except`.
-/

namespace EnhancePrompt

/-- Python values storable in the cache: JSON-safe values plus Python
`None`.  This is the value universe handled by `CacheManager.set` /
`CacheManager.get` in `backend/app/core/cache.py`.  (Python floats are
outside this model; no claim mentions them.) -/
inductive PyVal where
  | none
  | bool (b : Bool)
  | int (n : Int)
  | str (s : String)
  | list (xs : List PyVal)
  | dict (fields : List (String × PyVal))

/-- One character of Python `json.dumps` output (`ensure_ascii=False`).
The common escapes are modelled; `\uXXXX` escaping of other control
characters is not (no claim exercises them). -/
def jsonEscapeChar (c : Char) : String :=
  if c = '"' then "\\\""
  else if c = '\\' then "\\\\"
  else if c = '\n' then "\\n"
  else if c = '\t' then "\\t"
  else if c = '\r' then "\\r"
  else String.mk [c]

def jsonEscape (s : String) : String :=
  String.join (s.toList.map jsonEscapeChar)

mutual
/-- Model of `json.dumps(v, ensure_ascii=False)` with Python's default separators
`", "` and `": "`, as used by `CacheManager.set` and `_generate_key`. -/
def jsonDumps : PyVal → String
  | .none => "null"
  | .bool true => "true"
  | .bool false => "false"
  | .int n => toString n
  | .str s => "\"" ++ jsonEscape s ++ "\""
  | .list xs => "[" ++ String.intercalate ", " (jsonDumpsList xs) ++ "]"
  | .dict fs => "\x7b" ++ String.intercalate ", " (jsonDumpsFields fs) ++ "\x7d"

def jsonDumpsList : List PyVal → List String
  | [] => []
  | x :: xs => jsonDumps x :: jsonDumpsList xs

def jsonDumpsFields : List (String × PyVal) → List String
  | [] => []
  | (k, v) :: fs => ("\"" ++ jsonEscape k ++ "\": " ++ jsonDumps v) :: jsonDumpsFields fs
end

/-- Python `str(value)` for the non-structured branch of
`CacheManager.set` (`str` of a dict/list never reaches the cache:
structured values take the `json.dumps` branch). -/
def pyStr : PyVal → String
  | .none => "None"
  | .bool true => "True"
  | .bool false => "False"
  | .int n => toString n
  | .str s => s
  | .list xs => "[" ++ String.intercalate ", " (jsonDumpsList xs) ++ "]"
  | .dict fs => "\x7b" ++ String.intercalate ", " (jsonDumpsFields fs) ++ "\x7d"

/-- The serialization performed by `CacheManager.set`:
`json.dumps` for `dict`/`list`/`tuple` instances, `str(value)` otherwise. -/
def pySerialize : PyVal → String
  | .list xs => jsonDumps (.list xs)
  | .dict fs => jsonDumps (.dict fs)
  | v => pyStr v

/-! ### A JSON decoder modelling `json.loads`

Recursive-descent with explicit fuel.  Floats (`1.5`, `1e3`) and the
non-standard `NaN`/`Infinity` literals are rejected instead of producing
a float, and `\b`/`\f`/`\uXXXX` string escapes are unmodelled — none of
these are producible by `pySerialize` nor touched by any claim. -/

def skipWs : List Char → List Char
  | [] => []
  | c :: cs => if c = ' ' ∨ c = '\t' ∨ c = '\n' ∨ c = '\r' then skipWs cs else c :: cs

def dropLiteral : List Char → List Char → Option (List Char)
  | [], cs => some cs
  | _ :: _, [] => Option.none
  | l :: ls, c :: cs => if c = l then dropLiteral ls cs else Option.none

def takeDigits : List Char → (List Char × List Char)
  | [] => ([], [])
  | c :: cs =>
    if c.isDigit then
      let r := takeDigits cs
      (c :: r.1, r.2)
    else ([], c :: cs)

def digitsToNat (ds : List Char) : Nat :=
  ds.foldl (fun acc c => acc * 10 + (c.toNat - 48)) 0

def isFloatContinuation : List Char → Bool
  | [] => false
  | c :: _ => c = '.' || c = 'e' || c = 'E'

def parseIntToken (cs : List Char) : Option (PyVal × List Char) :=
  match cs with
  | '-' :: rest =>
    let r := takeDigits rest
    if r.1.isEmpty then Option.none
    else if isFloatContinuation r.2 then Option.none
    else some (.int (-(digitsToNat r.1 : Int)), r.2)
  | _ =>
    let r := takeDigits cs
    if r.1.isEmpty then Option.none
    else if isFloatContinuation r.2 then Option.none
    else some (.int (digitsToNat r.1 : Int), r.2)

def parseStringBody : List Char → Option (String × List Char)
  | [] => Option.none
  | '"' :: rest => some ("", rest)
  | '\\' :: e :: rest =>
    let esc : Option Char :=
      if e = '"' then some '"'
      else if e = '\\' then some '\\'
      else if e = '/' then some '/'
      else if e = 'n' then some '\n'
      else if e = 't' then some '\t'
      else if e = 'r' then some '\r'
      else Option.none
    match esc with
    | some c => (parseStringBody rest).map (fun r => (String.mk (c :: r.1.toList), r.2))
    | Option.none => Option.none
  | '\\' :: [] => Option.none
  | c :: rest => (parseStringBody rest).map (fun r => (String.mk (c :: r.1.toList), r.2))

mutual
def parseVal : Nat → List Char → Option (PyVal × List Char)
  | 0, _ => Option.none
  | fuel + 1, cs0 =>
    match skipWs cs0 with
    | [] => Option.none
    | '"' :: rest => (parseStringBody rest).map (fun r => (.str r.1, r.2))
    | '[' :: rest =>
      (match skipWs rest with
       | ']' :: rest2 => some (.list [], rest2)
       | rest1 => (parseArrayItems fuel rest1).map (fun r => (.list r.1, r.2)))
    | '\x7b' :: rest =>
      (match skipWs rest with
       | '\x7d' :: rest2 => some (.dict [], rest2)
       | rest1 => (parseObjItems fuel rest1).map (fun r => (.dict r.1, r.2)))
    | 't' :: rest => (dropLiteral ['r', 'u', 'e'] rest).map (fun r => (.bool true, r))
    | 'f' :: rest => (dropLiteral ['a', 'l', 's', 'e'] rest).map (fun r => (.bool false, r))
    | 'n' :: rest => (dropLiteral ['u', 'l', 'l'] rest).map (fun r => (.none, r))
    | cs => parseIntToken cs

def parseArrayItems : Nat → List Char → Option (List PyVal × List Char)
  | 0, _ => Option.none
  | fuel + 1, cs =>
    match parseVal fuel cs with
    | Option.none => Option.none
    | some (v, rest) =>
      match skipWs rest with
      | ',' :: rest2 => (parseArrayItems fuel rest2).map (fun r => (v :: r.1, r.2))
      | ']' :: rest2 => some ([v], rest2)
      | _ => Option.none

def parseObjItems : Nat → List Char → Option (List (String × PyVal) × List Char)
  | 0, _ => Option.none
  | fuel + 1, cs =>
    match skipWs cs with
    | '"' :: rest =>
      (match parseStringBody rest with
       | Option.none => Option.none
       | some (k, rest1) =>
         match skipWs rest1 with
         | ':' :: rest2 =>
           (match parseVal fuel rest2 with
            | Option.none => Option.none
            | some (v, rest3) =>
              match skipWs rest3 with
              | ',' :: rest4 => (parseObjItems fuel rest4).map (fun r => ((k, v) :: r.1, r.2))
              | '\x7d' :: rest4 => some ([(k, v)], rest4)
              | _ => Option.none)
         | _ => Option.none)
    | _ => Option.none
end

/-- Model of `json.loads`: parse one JSON value and require only whitespace after it. -/
def jsonLoads (s : String) : Option PyVal :=
  match parseVal (s.length + 1) s.toList with
  | some (v, rest) => if (skipWs rest).isEmpty then some v else Option.none
  | Option.none => Option.none

/-- The deserialization in `CacheManager.get`: `json.loads(value)`, and on
`JSONDecodeError` the raw string is returned. -/
def jsonLoadsOrRaw (s : String) : PyVal :=
  match jsonLoads s with
  | some v => v
  | Option.none => .str s

/-! ### `CacheManager` (`backend/app/core/cache.py`)

`self.local_cache` is a Python dict; it is modelled as an association
list in insertion order (assignment to an existing key keeps its
position, a new key is appended, `del` removes it), matching dict
iteration order, which `min(self.local_cache.keys, ...)` relies on. -/

/-- One entry of the local cache:
`{'value': ..., 'created_at': ..., 'expires_at': ...}`. -/
structure CacheEntry where
  value : PyVal
  createdAt : Nat
  expiresAt : Nat

abbrev LocalCache := List (String × CacheEntry)

/-- Python dict assignment `d[k] = v`: replace in place if present,
else append. -/
def dictSet {α : Type} (l : List (String × α)) (k : String) (v : α) : List (String × α) :=
  if l.any (fun p => p.1 == k) then
    l.map (fun p => if p.1 == k then (k, v) else p)
  else l ++ [(k, v)]

/-- Python `del d[k]`. -/
def dictDel {α : Type} (l : List (String × α)) (k : String) : List (String × α) :=
  l.filter (fun p => p.1 ≠ k)

/-- A key stored on the shared (Redis) tier by `SETEX`: a string value
with a server-side expiry. -/
structure RedisEntry where
  value : String
  expiresAt : Nat

/-- The shared tier as seen through `self.redis_client`: either a
reachable server with its contents, or a connection whose every
operation raises (network failure). -/
inductive RedisConn where
  | ok (store : List (String × RedisEntry))
  | failing

/-- The mutable state of a `CacheManager` instance: `self.redis_client`
(`None` when never connected / connect failed), `self.local_cache`, and
`self.max_local_cache_size`. -/
structure CMState where
  redisClient : Option RedisConn
  localCache : LocalCache
  maxLocalCacheSize : Nat

/-- A fresh `CacheManager()`: no Redis client, empty local cache,
capacity 1000. -/
def newCacheManager : CMState :=
  { redisClient := Option.none, localCache := [], maxLocalCacheSize := 1000 }

/-- The local-tier half of `CacheManager.get`: check `self.local_cache`,
honour `expires_at` (deleting a stale entry), else return `default`. -/
def localFallback (st : CMState) (key : String) (dflt : PyVal) (now : Nat) :
    PyVal × CMState :=
  match List.lookup key st.localCache with
  | some item =>
    if now < item.expiresAt then (item.value, st)
    else (dflt, { st with localCache := dictDel st.localCache key })
  | Option.none => (dflt, st)

/-- Model of `CacheManager.get(key, default)`.  The `try` block spans the Redis
read, the local fallthrough and the final `return default`; a raising
Redis `GET` therefore lands in the `except` handler, which returns
`default` directly — the local tier is not consulted on that path. -/
def cacheGet (st : CMState) (key : String) (dflt : PyVal) (now : Nat) :
    PyVal × CMState :=
  match st.redisClient with
  | some .failing => (dflt, st)
  | some (.ok store) =>
    (match List.lookup key store with
     | some e =>
       if now < e.expiresAt then (jsonLoadsOrRaw e.value, st)
       else localFallback st key dflt now
     | Option.none => localFallback st key dflt now)
  | Option.none => localFallback st key dflt now

/-- Model of `CacheManager._cleanup_local_cache`: drop every entry with
`expires_at <= now`. -/
def cleanupLocalCache (cache : LocalCache) (now : Nat) : LocalCache :=
  cache.filter (fun p => !(p.2.expiresAt ≤ now))

/-- Model of `min(self.local_cache.keys(), key=lambda k: ...['created_at'])`:
the first entry attaining the minimal `created_at`. -/
def oldestEntry : LocalCache → Option (String × CacheEntry)
  | [] => Option.none
  | p :: rest =>
    match oldestEntry rest with
    | Option.none => some p
    | some q => if p.2.createdAt ≤ q.2.createdAt then some p else some q

/-- Model of `CacheManager._set_local_cache(key, value, ttl)`: purge expired
entries, evict the oldest-created entry if still at capacity, then store
the (unserialized) value.  Returns `Option.none` in the one state where
the source raises (`min` over an empty dict, reachable only with
capacity 0). -/
def setLocalCache (maxSize : Nat) (cache : LocalCache) (key : String)
    (value : PyVal) (ttl now : Nat) : Option LocalCache :=
  let cleaned := cleanupLocalCache cache now
  if maxSize ≤ cleaned.length then
    match oldestEntry cleaned with
    | some p =>
      some (dictSet (dictDel cleaned p.1) key
        { value := value, createdAt := now, expiresAt := now + ttl })
    | Option.none => Option.none
  else
    some (dictSet cleaned key
      { value := value, createdAt := now, expiresAt := now + ttl })

/-- Model of `CacheManager.set(key, value, ttl)`: serialize, write the shared
tier when a client exists (a raising `SETEX` is caught and yields
`False`), else fall back to `_set_local_cache`.  The local tier stores
the original value, not the serialized string. -/
def cmSet (st : CMState) (key : String) (value : PyVal) (ttl now : Nat) :
    Bool × CMState :=
  match st.redisClient with
  | some .failing => (false, st)
  | some (.ok store) =>
    (true, { st with redisClient := some (.ok (dictSet store key
      { value := pySerialize value, expiresAt := now + ttl })) })
  | Option.none =>
    match setLocalCache st.maxLocalCacheSize st.localCache key value ttl now with
    | some c => (true, { st with localCache := c })
    | Option.none =>
      -- `_set_local_cache` raised after its cleanup mutation; `except` → False
      (false, { st with localCache := cleanupLocalCache st.localCache now })

/-- Model of `CacheManager.exists(key)`: with a Redis client the answer comes
from the server alone; otherwise the local tier is checked with the
same lazy-expiry discipline as `get`. -/
def cmExists (st : CMState) (key : String) (now : Nat) : Bool × CMState :=
  match st.redisClient with
  | some .failing => (false, st)
  | some (.ok store) =>
    (match List.lookup key store with
     | some e => (decide (now < e.expiresAt), st)
     | Option.none => (false, st))
  | Option.none =>
    match List.lookup key st.localCache with
    | some item =>
      if now < item.expiresAt then (true, st)
      else (false, { st with localCache := dictDel st.localCache key })
    | Option.none => (false, st)

/-! ### `CacheManager._generate_key` -/

/-- Model of `json.dumps(kwargs, sort_keys=True)`: serialize the keyword
arguments sorted by key, with Python's default separators. -/
def jsonDumpsKwargsSorted (kwargs : List (String × PyVal)) : String :=
  let sorted := List.insertionSort (fun a b => a.1 ≤ b.1) kwargs
  "\x7b" ++ String.intercalate ", "
    (sorted.map (fun p => "\"" ++ jsonEscape p.1 ++ "\": " ++ jsonDumps p.2)) ++ "\x7d"

/-- The canonical joined form built by `_generate_key` before the
length check: `f"{prefix}:{':'.join(map(str, args))}"`, plus the
sorted kwargs serialization when kwargs are present.  Positional
arguments appear already `str`-mapped. -/
def canonicalKeyData (pfx : String) (args : List String)
    (kwargs : List (String × PyVal)) : String :=
  let base := pfx ++ ":" ++ String.intercalate ":" args
  if kwargs.isEmpty then base else base ++ ":" ++ jsonDumpsKwargsSorted kwargs

/-- Model of `CacheManager._generate_key(prefix, *args, **kwargs)`.  `md5hex` is
the (pure) `hashlib.md5(...).hexdigest()` digest function, passed as a
parameter. -/
def generateKey (md5hex : String → String) (pfx : String) (args : List String)
    (kwargs : List (String × PyVal)) : String :=
  let keyData := canonicalKeyData pfx args kwargs
  if 250 < keyData.length then pfx ++ ":hash:" ++ md5hex keyData
  else keyData

/-! ### `RateLimiter.is_allowed` (`backend/app/core/cache.py`)

The per-key Redis sorted set.  Every member this code ever adds is
`str(t)` with score `t`, and `str` is injective on integers, so the
member set is faithfully represented by the list of integer scores:
two calls collide on one member exactly when their integer timestamps
are equal.  `expiresAt` models the key TTL set by `pipe.expire`. -/

structure WindowState where
  entries : List Int
  expiresAt : Int

/-- The state of a limiter key that does not yet exist on the server. -/
def initialWindow : WindowState := { entries := [], expiresAt := 0 }

/-- One `RateLimiter.is_allowed(key, limit, window)` call with a
reachable Redis, at integer time `now`: the atomic pipeline
`zremrangebyscore key 0 (now - window)`, `zcard`, `zadd key (str(now), now)`,
`expire key window`; the result is `pre-insert-count < limit`.
(With no Redis client, or on a raising pipeline, the source returns
`True` unconditionally — not modelled here, exercised by no claim.) -/
def isAllowedStep (limit window : Int) (st : WindowState) (now : Int) :
    Bool × WindowState :=
  let live := if now < st.expiresAt then st.entries else []
  let windowStart := now - window
  let pruned := live.filter (fun s => !(decide (0 ≤ s) && decide (s ≤ windowStart)))
  let preCount : Int := pruned.length
  let entries := if pruned.contains now then pruned else pruned ++ [now]
  (decide (preCount < limit), { entries := entries, expiresAt := now + window })

/-- A sequence of `is_allowed` calls on one key at the given times. -/
def runAllowed (limit window : Int) (st : WindowState) : List Int → List Bool
  | [] => []
  | t :: ts =>
    let r := isAllowedStep limit window st t
    r.1 :: runAllowed limit window r.2 ts

/-- Final window state after a sequence of `is_allowed` calls. -/
def runAllowedState (limit window : Int) (st : WindowState) : List Int → WindowState
  | [] => st
  | t :: ts => runAllowedState limit window (isAllowedStep limit window st t).2 ts

/-! ### `MultiLevelCache` (`backend/app/services/cache_strategy.py`)

Tiered reads.  Python `None` (a miss, and the `value is not None` hit
test) is `PyVal.none`.  A tier read raising inside `get`'s per-level
`try` makes the loop `continue`; the only raise reachable in the
modelled operations is `_set_l1_cache`'s `min` over an empty dict
during backfill (capacity 0), carried as the `Except` error branch. -/

inductive CacheLevel where
  | l1Memory
  | l2Redis
  | l3Database
deriving DecidableEq

/-- Model of `self.default_ttl` of `MultiLevelCache.__init__`. -/
def defaultTtl : CacheLevel → Nat
  | .l1Memory => 300
  | .l2Redis => 1800
  | .l3Database => 3600

/-- The mutable state of a `MultiLevelCache`: the wrapped
`cache_manager`, `self.l1_cache` and `self.max_l1_size`. -/
structure MLState where
  cm : CMState
  l1Cache : LocalCache
  maxL1Size : Nat

/-- Model of `MultiLevelCache.__init__` over a given `CacheManager` state. -/
def newMultiLevelCache (cm : CMState) : MLState :=
  { cm := cm, l1Cache := [], maxL1Size := 1000 }

/-- Model of `MultiLevelCache._get_l1_cache(key)`: same lazy-expiry read as the
`CacheManager` local tier; a miss is Python `None`. -/
def getL1Cache (st : MLState) (key : String) (now : Nat) : PyVal × MLState :=
  match List.lookup key st.l1Cache with
  | some item =>
    if now < item.expiresAt then (item.value, st)
    else (.none, { st with l1Cache := dictDel st.l1Cache key })
  | Option.none => (.none, st)

/-- Model of `MultiLevelCache._cleanup_l1_cache`: identical body to
`CacheManager._cleanup_local_cache`, on `self.l1_cache`. -/
def cleanupL1Cache (cache : LocalCache) (now : Nat) : LocalCache :=
  cache.filter (fun p => !(p.2.expiresAt ≤ now))

/-- Model of `MultiLevelCache._set_l1_cache(key, value, ttl)`: identical body to
`CacheManager._set_local_cache`, on `self.l1_cache` / `self.max_l1_size`. -/
def setL1Cache (maxSize : Nat) (cache : LocalCache) (key : String)
    (value : PyVal) (ttl now : Nat) : Option LocalCache :=
  let cleaned := cleanupL1Cache cache now
  if maxSize ≤ cleaned.length then
    match oldestEntry cleaned with
    | some p =>
      some (dictSet (dictDel cleaned p.1) key
        { value := value, createdAt := now, expiresAt := now + ttl })
    | Option.none => Option.none
  else
    some (dictSet cleaned key
      { value := value, createdAt := now, expiresAt := now + ttl })

/-- Model of `MultiLevelCache._get_from_level(key, level)`.  The L2 read is
`self.cache_manager.get(key)` with its default `None`; the L3 branch
returns `None`. -/
def getFromLevel (st : MLState) (key : String) (lvl : CacheLevel) (now : Nat) :
    PyVal × MLState :=
  match lvl with
  | .l1Memory => getL1Cache st key now
  | .l2Redis =>
    let r := cacheGet st.cm key .none now
    (r.1, { st with cm := r.2 })
  | .l3Database => (.none, st)

/-- Model of `MultiLevelCache._set_to_level(key, value, ttl, level)`.  The error
branch carries the state at the raise point (`_set_l1_cache` has already
run its cleanup mutation when `min` raises). -/
def setToLevel (st : MLState) (key : String) (value : PyVal) (ttl : Nat)
    (lvl : CacheLevel) (now : Nat) : Except MLState MLState :=
  match lvl with
  | .l1Memory =>
    (match setL1Cache st.maxL1Size st.l1Cache key value ttl now with
     | some c => .ok { st with l1Cache := c }
     | Option.none => .error { st with l1Cache := cleanupL1Cache st.l1Cache now })
  | .l2Redis =>
    let r := cmSet st.cm key value ttl now
    .ok { st with cm := r.2 }
  | .l3Database => .ok st

/-- The `for i in range(found_index)` loop of
`MultiLevelCache._backfill_cache`: write the value to each listed level
with that level's default TTL. -/
def backfillLoop (st : MLState) (key : String) (value : PyVal) (now : Nat) :
    List CacheLevel → Except MLState MLState
  | [] => .ok st
  | lvl :: rest =>
    match setToLevel st key value (defaultTtl lvl) lvl now with
    | .ok st1 => backfillLoop st1 key value now rest
    | .error st1 => .error st1

/-- Model of `MultiLevelCache._backfill_cache(key, value, found_level, all_levels)`:
`found_index = all_levels.index(found_level)` (first occurrence), then
backfill the levels strictly before it. -/
def backfillCache (st : MLState) (key : String) (value : PyVal)
    (foundLevel : CacheLevel) (allLevels : List CacheLevel) (now : Nat) :
    Except MLState MLState :=
  let foundIndex := allLevels.indexOf foundLevel
  backfillLoop st key value now (allLevels.take foundIndex)

/-- The `for level in levels` loop of `MultiLevelCache.get`: on a
non-`None` value, backfill and return it; a raise inside the per-level
`try` (only possible from backfill) `continue`s to the next level. -/
def mlGetLoop (st : MLState) (key : String) (allLevels : List CacheLevel)
    (now : Nat) : List CacheLevel → PyVal × MLState
  | [] => (.none, st)
  | lvl :: rest =>
    match getFromLevel st key lvl now with
    | (.none, st1) => mlGetLoop st1 key allLevels now rest
    | (v, st1) =>
      match backfillCache st1 key v lvl allLevels now with
      | .ok st2 => (v, st2)
      | .error st2 => mlGetLoop st2 key allLevels now rest

/-- Model of `MultiLevelCache.get(key, levels)`; Python returns `None` when every
level misses. -/
def mlGet (st : MLState) (key : String) (levels : List CacheLevel) (now : Nat) :
    PyVal × MLState :=
  mlGetLoop st key levels now levels

/-- The default tier list of `MultiLevelCache.get`/`set`. -/
def defaultLevels : List CacheLevel := [.l1Memory, .l2Redis]

/-! ### `SmartCacheManager` access telemetry and adaptive TTL
(`backend/app/services/cache_strategy.py`)

Timestamps are rationals (seconds): `datetime` differences and the mean
interval are exact arithmetic here, standing in for Python floats. -/

/-- One `self.access_patterns[key]` record. -/
structure AccessPattern where
  count : Nat
  lastAccess : Option ℚ
  accessTimes : List ℚ

/-- The record created by `_record_access` on first sight of a key. -/
def emptyPattern : AccessPattern :=
  { count := 0, lastAccess := Option.none, accessTimes := [] }

/-- Model of `SmartCacheManager._record_access(key)` on that key's pattern:
bump the count, stamp `last_access`, append to `access_times`, and trim
`access_times` to its last 100 elements. -/
def recordAccess (pat : AccessPattern) (now : ℚ) : AccessPattern :=
  let times := pat.accessTimes ++ [now]
  let times := if 100 < times.length then times.drop (times.length - 100) else times
  { count := pat.count + 1, lastAccess := some now, accessTimes := times }

/-- The consecutive access intervals computed by `_calculate_ttl`:
`access_times[i] - access_times[i-1]`. -/
def accessIntervals (times : List ℚ) : List ℚ :=
  (times.zip times.tail).map (fun p => p.2 - p.1)

/-- The mean inter-access interval `sum(intervals) / len(intervals)`. -/
def meanInterval (times : List ℚ) : ℚ :=
  (accessIntervals times).sum / ((accessIntervals times).length : ℚ)

/-- The TTL bucketing applied to the mean interval by `_calculate_ttl`. -/
def ttlBucket (avgInterval : ℚ) : Nat :=
  if avgInterval < 60 then 300
  else if avgInterval < 300 then 900
  else if avgInterval < 1800 then 3600
  else 7200

/-- Model of `SmartCacheManager._calculate_ttl(key)` on that key's recorded
access times: fixed 1800 with fewer than two observations, else the
bucket of the mean interval. -/
def calculateTtl (times : List ℚ) : Nat :=
  if times.length < 2 then 1800
  else
    let intervals := accessIntervals times
    let avgInterval := intervals.sum / (intervals.length : ℚ)
    if avgInterval < 60 then 300
    else if avgInterval < 300 then 900
    else if avgInterval < 1800 then 3600
    else 7200

/-! ## Helper lemmas -/

theorem lookup_map_set {α : Type} (l : List (String × α)) (k : String) (v : α)
    (h : l.any (fun p => p.1 == k) = true) :
    List.lookup k (l.map (fun p => if p.1 == k then (k, v) else p)) = some v := by
  induction l with
  | nil => simp at h
  | cons p rest ih =>
    obtain ⟨a, b⟩ := p
    simp only [List.any_cons, Bool.or_eq_true, beq_iff_eq] at h
    by_cases hp : a = k
    · have hcond : ((a, b).1 == k) = true := beq_iff_eq.mpr hp
      rw [List.map_cons, if_pos hcond, List.lookup]
      simp
    · have hcond : ¬(((a, b).1 == k) = true) := by simp [hp]
      have hrest : rest.any (fun p => p.1 == k) = true := by
        simpa using h.resolve_left hp
      have hk : (k == a) = false := beq_eq_false_iff_ne.mpr (fun e => hp e.symm)
      rw [List.map_cons, if_neg hcond, List.lookup, hk]
      exact ih hrest

theorem lookup_append_singleton {α : Type} (l : List (String × α)) (k : String) (v : α)
    (h : l.any (fun p => p.1 == k) = false) :
    List.lookup k (l ++ [(k, v)]) = some v := by
  induction l with
  | nil => simp [List.lookup]
  | cons p rest ih =>
    simp only [List.any_cons, Bool.or_eq_false_iff] at h
    have hk : (k == p.1) = false := by
      rw [beq_eq_false_iff_ne]
      intro e
      rw [beq_eq_false_iff_ne] at h
      exact h.1 e.symm
    simp only [List.cons_append, List.lookup, hk]
    exact ih h.2

/-- Reading a dict right after `d[k] = v` yields `v`. -/
theorem lookup_dictSet_self {α : Type} (l : List (String × α)) (k : String) (v : α) :
    List.lookup k (dictSet l k v) = some v := by
  unfold dictSet
  by_cases h : l.any (fun p => p.1 == k) = true
  · rw [if_pos h]; exact lookup_map_set l k v h
  · rw [if_neg h]
    exact lookup_append_singleton l k v (Bool.eq_false_iff.mpr h)

theorem length_dictSet_le {α : Type} (l : List (String × α)) (k : String) (v : α) :
    (dictSet l k v).length ≤ l.length + 1 := by
  unfold dictSet
  split
  · simp
  · simp

theorem length_dictDel_lt {α : Type} (l : List (String × α)) (p : String × α)
    (hp : p ∈ l) : (dictDel l p.1).length < l.length := by
  unfold dictDel
  exact List.length_filter_lt_length_iff_exists.mpr ⟨p, hp, by simp⟩

theorem length_dictDel_le {α : Type} (l : List (String × α)) (k : String) :
    (dictDel l k).length ≤ l.length :=
  List.length_filter_le _ _

theorem oldestEntry_eq_none (l : LocalCache)
    (h : oldestEntry l = Option.none) : l = [] := by
  cases l with
  | nil => rfl
  | cons q rest =>
    rw [oldestEntry] at h
    split at h
    · exact absurd h (by simp)
    · split at h <;> exact absurd h (by simp)

theorem oldestEntry_mem (l : LocalCache) (p : String × CacheEntry)
    (h : oldestEntry l = some p) : p ∈ l := by
  induction l generalizing p with
  | nil => simp [oldestEntry] at h
  | cons q rest ih =>
    rw [oldestEntry] at h
    split at h
    · cases h
      exact List.mem_cons_self _ _
    · rename_i r hrest
      split at h
      · cases h
        exact List.mem_cons_self _ _
      · cases h
        exact List.mem_cons_of_mem _ (ih _ hrest)

theorem oldestEntry_min (l : LocalCache) (p : String × CacheEntry)
    (h : oldestEntry l = some p) :
    ∀ q ∈ l, p.2.createdAt ≤ q.2.createdAt := by
  induction l generalizing p with
  | nil => simp [oldestEntry] at h
  | cons q rest ih =>
    intro x hx
    rw [oldestEntry] at h
    split at h
    · rename_i hrest
      have hnil : rest = [] := oldestEntry_eq_none rest hrest
      subst hnil
      cases h
      have : x = q := by simpa using hx
      subst this
      exact le_refl _
    · rename_i r hrest
      by_cases hle : q.2.createdAt ≤ r.2.createdAt
      · rw [if_pos hle] at h
        have hpq : p = q := (Option.some.inj h).symm
        subst hpq
        rcases List.mem_cons.mp hx with rfl | hxr
        · exact le_refl _
        · exact le_trans hle (ih r hrest x hxr)
      · rw [if_neg hle] at h
        have hpr : p = r := (Option.some.inj h).symm
        rw [hpr]
        rcases List.mem_cons.mp hx with rfl | hxr
        · exact le_of_not_le hle
        · exact ih r hrest x hxr

theorem oldestEntry_isSome (l : LocalCache) (hne : l ≠ []) :
    ∃ p, oldestEntry l = some p := by
  cases l with
  | nil => exact absurd rfl hne
  | cons q rest =>
    cases hrest : oldestEntry rest with
    | none => exact ⟨q, by simp [oldestEntry, hrest]⟩
    | some r =>
      by_cases hle : q.2.createdAt ≤ r.2.createdAt
      · exact ⟨q, by simp [oldestEntry, hrest, hle]⟩
      · exact ⟨r, by simp [oldestEntry, hrest, hle]⟩

/-- With strictly increasing `created_at` along the dict (entries were
inserted in time order), the oldest entry is the first one. -/
theorem oldestEntry_head_of_sorted (l : LocalCache)
    (hs : List.Sorted (fun a b => a.2.createdAt < b.2.createdAt) l) :
    oldestEntry l = l.head? := by
  induction l with
  | nil => rfl
  | cons q rest ih =>
    rw [List.sorted_cons] at hs
    cases hrest : oldestEntry rest with
    | none => simp [oldestEntry, hrest]
    | some r =>
      have hr : r ∈ rest := oldestEntry_mem rest r hrest
      have hle : q.2.createdAt ≤ r.2.createdAt := le_of_lt (hs.1 r hr)
      simp [oldestEntry, hrest, hle]

/-- Fact: `_cleanup_local_cache` is the identity on a store with no expired
entry. -/
theorem cleanup_eq_self (cache : LocalCache) (now : Nat)
    (h : ∀ q ∈ cache, now < q.2.expiresAt) :
    cleanupLocalCache cache now = cache := by
  unfold cleanupLocalCache
  rw [List.filter_eq_self]
  intro p hp
  simpa using h p hp

theorem cleanupL1_eq_self (cache : LocalCache) (now : Nat)
    (h : ∀ q ∈ cache, now < q.2.expiresAt) :
    cleanupL1Cache cache now = cache := by
  unfold cleanupL1Cache
  rw [List.filter_eq_self]
  intro p hp
  simpa using h p hp

/-- Sorting keyword arguments by key is permutation-invariant when the
keys are distinct (they are: Python kwargs form a dict). -/
theorem insertionSort_key_eq_of_perm (kws₁ kws₂ : List (String × PyVal))
    (hperm : kws₁.Perm kws₂) (hnodup : (kws₁.map Prod.fst).Nodup) :
    List.insertionSort (fun a b => a.1 ≤ b.1) kws₁ =
      List.insertionSort (fun a b => a.1 ≤ b.1) kws₂ := by
  haveI : IsTotal (String × PyVal) (fun a b => a.1 ≤ b.1) :=
    ⟨fun a b => le_total a.1 b.1⟩
  haveI : IsTrans (String × PyVal) (fun a b => a.1 ≤ b.1) :=
    ⟨fun _ _ _ hab hbc => le_trans hab hbc⟩
  haveI : IsAntisymm (String × PyVal) (fun a b => a.1 < b.1) :=
    ⟨fun _ _ h1 h2 => absurd (lt_trans h1 h2) (lt_irrefl _)⟩
  have hps : (List.insertionSort (fun a b => a.1 ≤ b.1) kws₁).Perm
      (List.insertionSort (fun a b => a.1 ≤ b.1) kws₂) :=
    ((List.perm_insertionSort _ kws₁).trans hperm).trans
      (List.perm_insertionSort _ kws₂).symm
  have key_sorted : ∀ kws : List (String × PyVal),
      (kws.map Prod.fst).Nodup →
      List.Sorted (fun a b : String × PyVal => a.1 < b.1)
        (List.insertionSort (fun a b => a.1 ≤ b.1) kws) := by
    intro kws hnd
    have hs : List.Sorted (fun a b : String × PyVal => a.1 ≤ b.1)
        (List.insertionSort (fun a b => a.1 ≤ b.1) kws) :=
      List.sorted_insertionSort _ kws
    have hnd2 : ((List.insertionSort (fun a b => a.1 ≤ b.1) kws).map Prod.fst).Nodup :=
      (((List.perm_insertionSort _ kws).map Prod.fst).nodup_iff).mpr hnd
    have hpairneq : List.Pairwise (fun a b : String × PyVal => a.1 ≠ b.1)
        (List.insertionSort (fun a b => a.1 ≤ b.1) kws) :=
      List.pairwise_map.mp hnd2
    exact (hs.and hpairneq).imp (fun hab => lt_of_le_of_ne hab.1 hab.2)
  have hnodup₂ : (kws₂.map Prod.fst).Nodup :=
    ((hperm.map Prod.fst).nodup_iff).mp hnodup
  exact List.eq_of_perm_of_sorted hps (key_sorted kws₁ hnodup) (key_sorted kws₂ hnodup₂)

/-- Core induction for the rate limiter: starting from a window state
whose entries all lie strictly inside every upcoming call's window and
strictly precede every upcoming call, a strictly increasing sequence of
call times pairwise within `window` admits at most
`limit - (existing entries)` calls. -/
theorem runAllowed_count_le (limit window : Int) :
    ∀ (times : List Int) (st : WindowState),
      List.Sorted (· < ·) times →
      (∀ t₁ ∈ times, ∀ t₂ ∈ times, t₁ - t₂ < window) →
      (∀ t ∈ times, ∀ s ∈ st.entries, t - window < s ∧ s < t) →
      (st.entries = [] ∨ ∀ t ∈ times, t < st.expiresAt) →
      (runAllowed limit window st times).count true ≤
        (limit - st.entries.length).toNat := by
  intro times
  induction times with
  | nil =>
    intro st _ _ _ _
    simp [runAllowed]
  | cons t ts ih =>
    intro st hsorted hwin hst halive
    have hlive : (if t < st.expiresAt then st.entries else []) = st.entries := by
      rcases halive with hemp | hal
      · rw [hemp]; split <;> rfl
      · rw [if_pos (hal t (List.mem_cons_self t ts))]
    have hpruned : st.entries.filter
        (fun s => !(decide (0 ≤ s) && decide (s ≤ t - window))) = st.entries := by
      rw [List.filter_eq_self]
      intro s hs
      have h1 : t - window < s := (hst t (List.mem_cons_self t ts) s hs).1
      simp only [Bool.not_eq_true', Bool.and_eq_false_iff, decide_eq_false_iff_not]
      right
      omega
    have hnotmem : t ∉ st.entries := fun hmem =>
      absurd (hst t (List.mem_cons_self t ts) t hmem).2 (lt_irrefl t)
    have hcont : st.entries.contains t = false := by simpa using hnotmem
    have hstep : isAllowedStep limit window st t =
        (decide ((st.entries.length : Int) < limit),
          { entries := st.entries ++ [t], expiresAt := t + window }) := by
      simp only [isAllowedStep, hlive, hpruned, hcont]
      simp
    have hsorted' : List.Sorted (· < ·) ts := (List.sorted_cons.mp hsorted).2
    have hhead : ∀ t' ∈ ts, t < t' := (List.sorted_cons.mp hsorted).1
    have hwin' : ∀ t₁ ∈ ts, ∀ t₂ ∈ ts, t₁ - t₂ < window := fun t₁ h₁ t₂ h₂ =>
      hwin t₁ (List.mem_cons_of_mem t h₁) t₂ (List.mem_cons_of_mem t h₂)
    have hst' : ∀ t' ∈ ts, ∀ s ∈ st.entries ++ [t], t' - window < s ∧ s < t' := by
      intro t' ht' s hsmem
      rcases List.mem_append.mp hsmem with hold | hnew
      · exact hst t' (List.mem_cons_of_mem t ht') s hold
      · have hseq : s = t := by simpa using hnew
        have hw := hwin t' (List.mem_cons_of_mem t ht') t (List.mem_cons_self t ts)
        rw [hseq]
        exact ⟨by omega, hhead t' ht'⟩
    have halive' : ({ entries := st.entries ++ [t], expiresAt := t + window } :
        WindowState).entries = [] ∨ ∀ t' ∈ ts, t' < t + window := by
      right
      intro t' ht'
      have hw := hwin t' (List.mem_cons_of_mem t ht') t (List.mem_cons_self t ts)
      omega
    have hIH := ih { entries := st.entries ++ [t], expiresAt := t + window }
      hsorted' hwin' hst' halive'
    simp only [List.length_append, List.length_singleton] at hIH
    rw [runAllowed]
    simp only [hstep]
    by_cases hc : (st.entries.length : Int) < limit
    · have hd : decide ((st.entries.length : Int) < limit) = true := decide_eq_true hc
      rw [hd]
      simp only [List.count_cons, beq_self_eq_true, if_true]
      omega
    · have hd : decide ((st.entries.length : Int) < limit) = false :=
        decide_eq_false hc
      rw [hd]
      simp only [List.count_cons]
      have : (false == true) = false := rfl
      rw [this]
      simp only [Bool.false_eq_true, if_false, add_zero]
      omega

theorem lookup_dictDel_self {α : Type} (l : List (String × α)) (k : String) :
    List.lookup k (dictDel l k) = Option.none := by
  induction l with
  | nil => rfl
  | cons p rest ih =>
    obtain ⟨a, b⟩ := p
    by_cases ha : a = k
    · have hstep : dictDel ((a, b) :: rest) k = dictDel rest k := by
        unfold dictDel
        rw [List.filter_cons]
        simp [ha]
      rw [hstep, ih]
    · have hstep : dictDel ((a, b) :: rest) k = (a, b) :: dictDel rest k := by
        unfold dictDel
        rw [List.filter_cons]
        simp [ha]
      rw [hstep, List.lookup]
      have hk : (k == a) = false := beq_eq_false_iff_ne.mpr (fun e => ha e.symm)
      rw [hk]
      exact ih

theorem lookup_mem {α : Type} (l : List (String × α)) (k : String) (v : α)
    (h : List.lookup k l = some v) : (k, v) ∈ l := by
  induction l with
  | nil => simp [List.lookup] at h
  | cons p rest ih =>
    obtain ⟨a, b⟩ := p
    rw [List.lookup] at h
    by_cases hk : (k == a) = true
    · rw [hk] at h
      have hbv : b = v := Option.some.inj h
      have hka : k = a := by simpa using hk
      rw [hka, hbv]
      exact List.mem_cons_self _ _
    · rw [Bool.eq_false_iff.mpr hk] at h
      exact List.mem_cons_of_mem _ (ih h)

/-- Fact: `_set_local_cache` always ends by storing the new entry, and with a
positive capacity it cannot raise; the stored entry is immediately
readable. -/
theorem setLocalCache_lookup (maxSize : Nat) (cache : LocalCache) (key : String)
    (v : PyVal) (ttl now : Nat) (hmax : 1 ≤ maxSize) :
    ∃ c, setLocalCache maxSize cache key v ttl now = some c ∧
      List.lookup key c = some { value := v, createdAt := now, expiresAt := now + ttl } := by
  unfold setLocalCache
  by_cases hfull : maxSize ≤ (cleanupLocalCache cache now).length
  · have hne : cleanupLocalCache cache now ≠ [] := by
      intro he
      rw [he] at hfull
      simp at hfull
      omega
    obtain ⟨p, hp⟩ := oldestEntry_isSome _ hne
    rw [if_pos hfull, hp]
    exact ⟨_, rfl, lookup_dictSet_self _ _ _⟩
  · rw [if_neg hfull]
    exact ⟨_, rfl, lookup_dictSet_self _ _ _⟩

/-- Same fact for the (identical) `_set_l1_cache`. -/
theorem setL1Cache_lookup (maxSize : Nat) (cache : LocalCache) (key : String)
    (v : PyVal) (ttl now : Nat) (hmax : 1 ≤ maxSize) :
    ∃ c, setL1Cache maxSize cache key v ttl now = some c ∧
      List.lookup key c = some { value := v, createdAt := now, expiresAt := now + ttl } := by
  unfold setL1Cache
  by_cases hfull : maxSize ≤ (cleanupL1Cache cache now).length
  · have hne : cleanupL1Cache cache now ≠ [] := by
      intro he
      rw [he] at hfull
      simp at hfull
      omega
    obtain ⟨p, hp⟩ := oldestEntry_isSome _ hne
    rw [if_pos hfull, hp]
    exact ⟨_, rfl, lookup_dictSet_self _ _ _⟩
  · rw [if_neg hfull]
    exact ⟨_, rfl, lookup_dictSet_self _ _ _⟩

/-! ## Claim theorems -/

/-- Claim C5: with `limit=3, window=10` on one key, sequential
`is_allowed` calls at t=0,1,2 return true, the call at t=3 returns
false, and the call at t=11 returns true; immediately after, the window
holds no timestamp at or before t=1 (0 and 1 were pruned). -/
theorem rateLimiter_concrete_scenario :
    runAllowed 3 10 initialWindow [0, 1, 2, 3, 11] = [true, true, true, false, true] ∧
    (runAllowedState 3 10 initialWindow [0, 1, 2, 3, 11]).entries = [2, 3, 11] ∧
    ∀ s ∈ (runAllowedState 3 10 initialWindow [0, 1, 2, 3, 11]).entries, 1 < s := by
  refine ⟨by decide, by decide, by decide⟩

/-- Claim C1, counterexample: the sorted-set member is `str(now)`, so
calls sharing one integer second collide on a single member and the
pre-insert count stops growing: with `limit=2, window=10`, three calls
at t=0 are all admitted — more than `limit`. -/
theorem sameSecond_collision_breaks_limit :
    runAllowed 2 10 initialWindow [0, 0, 0] = [true, true, true] ∧
    (runAllowed 2 10 initialWindow [0, 0, 0]).count true = 3 ∧
    ¬((runAllowed 2 10 initialWindow [0, 0, 0]).count true ≤ 2) := by
  refine ⟨by decide, by decide, by decide⟩

/-- Claim C1, amended: across any sequence of `is_allowed` calls on one
key whose timestamps are strictly increasing integer seconds (pairwise
distinct) and all fall within one window of length `window`, at most
`limit` calls return true.  (The unamended claim, which also covers
calls sharing one integer second, is refuted by
the same-second member collision.) -/
theorem isAllowed_at_most_limit_of_distinct_seconds
    (limit window : Int) (times : List Int)
    (hsorted : List.Sorted (· < ·) times)
    (hwin : ∀ t₁ ∈ times, ∀ t₂ ∈ times, t₁ - t₂ < window)
    (hlim : 0 ≤ limit) :
    ((runAllowed limit window initialWindow times).count true : Int) ≤ limit := by
  have h := runAllowed_count_le limit window times initialWindow hsorted hwin
    (by intro t _ s hs; simp [initialWindow] at hs) (Or.inl rfl)
  rw [show initialWindow.entries.length = 0 from rfl] at h
  push_cast at h ⊢
  omega

/-- Witness for C1's amended theorem at `limit=3, window=10`,
times 0,1,2,3. -/
theorem isAllowed_at_most_limit_witness :
    ((runAllowed 3 10 initialWindow [0, 1, 2, 3]).count true : Int) ≤ 3 :=
  isAllowed_at_most_limit_of_distinct_seconds 3 10 [0, 1, 2, 3]
    (by decide) (by decide) (by decide)

/-- Claim C2, counterexample: with a shared tier whose GET raises and a
live local entry for the key, `CacheManager.get` returns `default`
(here `None`), not the locally stored value: the `except` handler
short-circuits past the local fallthrough. -/
theorem sharedError_skips_local_counterexample :
    (cacheGet { redisClient := some .failing,
                localCache := [("k", { value := .str "v", createdAt := 0, expiresAt := 100 })],
                maxLocalCacheSize := 1000 } "k" .none 10).1 = PyVal.none ∧
    (cacheGet { redisClient := some .failing,
                localCache := [("k", { value := .str "v", createdAt := 0, expiresAt := 100 })],
                maxLocalCacheSize := 1000 } "k" .none 10).1 ≠ PyVal.str "v" := by
  exact ⟨rfl, fun h => PyVal.noConfusion h⟩

/-- Claim C2, amended: when the shared tier is configured but its GET
raises, `get` returns `default` with the state untouched, never
consulting the local tier; the fall-through to a live local entry
happens exactly when the shared tier is unconfigured or reports the key
absent without raising. -/
theorem cacheGet_fallthrough_amended :
    (∀ (st : CMState) (key : String) (dflt : PyVal) (now : Nat),
      st.redisClient = some .failing →
        cacheGet st key dflt now = (dflt, st)) ∧
    (∀ (st : CMState) (key : String) (dflt : PyVal) (now : Nat) (item : CacheEntry),
      st.redisClient = Option.none →
      List.lookup key st.localCache = some item →
      now < item.expiresAt →
        (cacheGet st key dflt now).1 = item.value) ∧
    (∀ (st : CMState) (store : List (String × RedisEntry)) (key : String)
        (dflt : PyVal) (now : Nat) (item : CacheEntry),
      st.redisClient = some (.ok store) →
      List.lookup key store = Option.none →
      List.lookup key st.localCache = some item →
      now < item.expiresAt →
        (cacheGet st key dflt now).1 = item.value) := by
  refine ⟨?_, ?_, ?_⟩
  · intro st key dflt now h
    simp [cacheGet, h]
  · intro st key dflt now item hrc hlook hexp
    simp [cacheGet, hrc, localFallback, hlook, hexp]
  · intro st store key dflt now item hrc hlook hlocal hexp
    simp [cacheGet, hrc, hlook, localFallback, hlocal, hexp]

/-- Witness for C2's amended theorem: a live local entry is served in
degraded (no shared tier) mode. -/
theorem cacheGet_fallthrough_witness :
    (cacheGet { redisClient := Option.none,
                localCache := [("k", { value := .int 7, createdAt := 0, expiresAt := 5 })],
                maxLocalCacheSize := 1000 } "k" .none 1).1 = PyVal.int 7 :=
  cacheGet_fallthrough_amended.2.1 _ "k" .none 1
    { value := .int 7, createdAt := 0, expiresAt := 5 } rfl rfl (by decide)

/-- Claim C3, counterexample: with a reachable shared tier,
`set(k, True, 100)` stores the Python string `"True"` (which is not
valid JSON), so the immediate `get(k)` returns the string `"True"` —
not a value structurally equal to `True`. -/
theorem roundTrip_bool_shared_counterexample :
    (cacheGet (cmSet { redisClient := some (.ok []), localCache := [],
                       maxLocalCacheSize := 1000 } "k" (PyVal.bool true) 100 0).2
        "k" PyVal.none 0).1 = PyVal.str "True" ∧
    (cacheGet (cmSet { redisClient := some (.ok []), localCache := [],
                       maxLocalCacheSize := 1000 } "k" (PyVal.bool true) 100 0).2
        "k" PyVal.none 0).1 ≠ PyVal.bool true := by
  exact ⟨rfl, fun h => PyVal.noConfusion h⟩

/-- Claim C3, amended: for every JSON-safe value `v` and `ttl > 0`,
`set(k, v, ttl)` followed by an immediate `get(k)` returns a value
structurally equal to `v` when only the local tier is in use (the local
tier stores the raw object); with a reachable shared tier the
round-trip instead returns the JSON-decode (or raw string) of the
Python serialization of `v`, which differs from `v` for booleans,
`None`, and strings whose text parses as JSON (e.g. `True` comes back
as the string `"True"`). -/
theorem roundTrip_amended :
    (∀ (st : CMState) (key : String) (v : PyVal) (ttl now : Nat),
      st.redisClient = Option.none → 1 ≤ st.maxLocalCacheSize → 0 < ttl →
        (cacheGet (cmSet st key v ttl now).2 key .none now).1 = v) ∧
    (∀ (st : CMState) (store : List (String × RedisEntry)) (key : String)
        (v : PyVal) (ttl now : Nat),
      st.redisClient = some (.ok store) → 0 < ttl →
        (cacheGet (cmSet st key v ttl now).2 key .none now).1 =
          jsonLoadsOrRaw (pySerialize v)) := by
  constructor
  · intro st key v ttl now hrc hmax httl
    obtain ⟨c, hc, hlook⟩ :=
      setLocalCache_lookup st.maxLocalCacheSize st.localCache key v ttl now hmax
    have hset : cmSet st key v ttl now = (true, { st with localCache := c }) := by
      unfold cmSet
      rw [hrc, hc]
    rw [hset]
    simp [cacheGet, hrc, localFallback, hlook, Nat.lt_add_of_pos_right httl]
  · intro st store key v ttl now hrc httl
    have hset : cmSet st key v ttl now =
        (true, { st with redisClient := some (.ok (dictSet store key { value := pySerialize v, expiresAt := now + ttl })) }) := by
      unfold cmSet
      rw [hrc]
    rw [hset]
    simp [cacheGet, lookup_dictSet_self, Nat.lt_add_of_pos_right httl]

/-- Witness for C3's amended theorem: local-only round-trip of an
integer, and shared-tier round-trip of a dict decoding back through
JSON. -/
theorem roundTrip_amended_witness :
    (cacheGet (cmSet newCacheManager "k" (PyVal.int 42) 60 0).2 "k" .none 0).1 =
      PyVal.int 42 ∧
    (cacheGet (cmSet { redisClient := some (.ok []), localCache := [],
                       maxLocalCacheSize := 1000 } "k2" (PyVal.bool true) 60 0).2
        "k2" .none 0).1 = jsonLoadsOrRaw (pySerialize (PyVal.bool true)) :=
  ⟨roundTrip_amended.1 newCacheManager "k" (PyVal.int 42) 60 0 rfl (by decide) (by decide),
   roundTrip_amended.2 _ [] "k2" (PyVal.bool true) 60 0 rfl (by decide)⟩

/-- Claim C6: when the local store is at capacity with no expired
entry, `_set_local_cache` evicts exactly the entry with the smallest
`created_at` (the first entry, under time-ordered insertion, i.e.
FIFO), then stores the new entry; reads of live entries never modify
the store, so intervening reads cannot influence the choice (not LRU). -/
theorem eviction_fifo_oldest :
    (∀ (maxSize : Nat) (cache : LocalCache) (key : String) (v : PyVal)
        (ttl now : Nat) (p : String × CacheEntry),
      (∀ q ∈ cache, now < q.2.expiresAt) →
      maxSize ≤ cache.length →
      oldestEntry cache = some p →
        setLocalCache maxSize cache key v ttl now =
          some (dictSet (dictDel cache p.1) key
            { value := v, createdAt := now, expiresAt := now + ttl }) ∧
        (∀ q ∈ cache, p.2.createdAt ≤ q.2.createdAt)) ∧
    (∀ cache : LocalCache,
      List.Sorted (fun a b => a.2.createdAt < b.2.createdAt) cache →
        oldestEntry cache = cache.head?) ∧
    (∀ (st : CMState) (key : String) (dflt : PyVal) (now : Nat),
      (∀ q ∈ st.localCache, now < q.2.expiresAt) →
        (localFallback st key dflt now).2 = st) := by
  refine ⟨?_, ?_, ?_⟩
  · intro maxSize cache key v ttl now p hlive hfull holdest
    have hclean : cleanupLocalCache cache now = cache := cleanup_eq_self cache now hlive
    constructor
    · unfold setLocalCache
      rw [hclean, if_pos hfull, holdest]
    · exact oldestEntry_min cache p holdest
  · intro cache hsorted
    exact oldestEntry_head_of_sorted cache hsorted
  · intro st key dflt now hlive
    cases hlook : List.lookup key st.localCache with
    | none => simp [localFallback, hlook]
    | some item =>
      have hx : now < item.expiresAt := hlive (key, item) (lookup_mem _ _ _ hlook)
      simp [localFallback, hlook, hx]

/-- Witness for C6 at a concrete 2-entry store at capacity 2: the entry
inserted first (smallest `created_at`) is the one evicted. -/
theorem eviction_fifo_oldest_witness :
    setLocalCache 2
      [("a", { value := .int 1, createdAt := 0, expiresAt := 100 }),
       ("b", { value := .int 2, createdAt := 1, expiresAt := 100 })]
      "c" (.int 3) 50 2 =
      some (dictSet (dictDel
        [("a", { value := .int 1, createdAt := 0, expiresAt := 100 }),
         ("b", { value := .int 2, createdAt := 1, expiresAt := 100 })] "a")
        "c" { value := .int 3, createdAt := 2, expiresAt := 52 }) :=
  ((eviction_fifo_oldest.1 2
      [("a", { value := .int 1, createdAt := 0, expiresAt := 100 }),
       ("b", { value := .int 2, createdAt := 1, expiresAt := 100 })]
      "c" (.int 3) 50 2
      ("a", { value := .int 1, createdAt := 0, expiresAt := 100 })
      (by decide) (by decide) rfl).1)

/-- Claim C7: a stored local/in-memory entry is never returned once the
current time exceeds its `expires_at`: `CacheManager.get` (both in
degraded no-client mode and after a configured shared tier reports the
key absent), `CacheManager.exists` and the L1 read of `MultiLevelCache`
all treat it as a miss and delete it. -/
theorem expired_never_returned :
    (∀ (st : CMState) (key : String) (dflt : PyVal) (now : Nat) (item : CacheEntry),
      st.redisClient = Option.none →
      List.lookup key st.localCache = some item →
      item.expiresAt < now →
        cacheGet st key dflt now =
          (dflt, { st with localCache := dictDel st.localCache key })) ∧
    (∀ (st : CMState) (key : String) (now : Nat) (item : CacheEntry),
      st.redisClient = Option.none →
      List.lookup key st.localCache = some item →
      item.expiresAt < now →
        cmExists st key now =
          (false, { st with localCache := dictDel st.localCache key })) ∧
    (∀ (st : MLState) (key : String) (now : Nat) (item : CacheEntry),
      List.lookup key st.l1Cache = some item →
      item.expiresAt < now →
        getL1Cache st key now =
          (.none, { st with l1Cache := dictDel st.l1Cache key })) ∧
    (∀ (st : CMState) (store : List (String × RedisEntry)) (key : String)
        (dflt : PyVal) (now : Nat) (item : CacheEntry),
      st.redisClient = some (.ok store) →
      List.lookup key store = Option.none →
      List.lookup key st.localCache = some item →
      item.expiresAt < now →
        cacheGet st key dflt now =
          (dflt, { st with localCache := dictDel st.localCache key })) := by
  refine ⟨?_, ?_, ?_, ?_⟩
  · intro st key dflt now item hrc hlook hexp
    have hne : ¬(now < item.expiresAt) := by omega
    simp [cacheGet, hrc, localFallback, hlook, hne]
  · intro st key now item hrc hlook hexp
    have hne : ¬(now < item.expiresAt) := by omega
    simp [cmExists, hrc, hlook, hne]
  · intro st key now item hlook hexp
    have hne : ¬(now < item.expiresAt) := by omega
    simp [getL1Cache, hlook, hne]
  · intro st store key dflt now item hrc hstore hlook hexp
    have hne : ¬(now < item.expiresAt) := by omega
    simp [cacheGet, hrc, hstore, localFallback, hlook, hne]

/-- Witness for C7 at a concrete expired entry, both in degraded mode
and behind a configured shared tier that misses. -/
theorem expired_never_returned_witness :
    cacheGet { redisClient := Option.none,
               localCache := [("k", { value := .int 9, createdAt := 0, expiresAt := 3 })],
               maxLocalCacheSize := 1000 } "k" .none 10 =
      (.none, { redisClient := Option.none,
                localCache := dictDel
                  [("k", { value := .int 9, createdAt := 0, expiresAt := 3 })] "k",
                maxLocalCacheSize := 1000 }) ∧
    cacheGet { redisClient := some (.ok []),
               localCache := [("k", { value := .int 9, createdAt := 0, expiresAt := 3 })],
               maxLocalCacheSize := 1000 } "k" .none 10 =
      (.none, { redisClient := some (.ok []),
                localCache := dictDel
                  [("k", { value := .int 9, createdAt := 0, expiresAt := 3 })] "k",
                maxLocalCacheSize := 1000 }) :=
  ⟨expired_never_returned.1 _ "k" .none 10
      { value := .int 9, createdAt := 0, expiresAt := 3 } rfl rfl (by decide),
   expired_never_returned.2.2.2 _ [] "k" .none 10
      { value := .int 9, createdAt := 0, expiresAt := 3 } rfl rfl rfl (by decide)⟩

/-- Claim C9: `_generate_key` is a pure function (determinism is
immediate); permuting keyword arguments (whose keys are distinct, as in
any Python dict) never changes the result, thanks to
`json.dumps(..., sort_keys=True)`; and whenever the canonical joined
form exceeds 250 characters the result is `prefix:hash:<digest>`, the
digest being the fixed `md5hex` function of the canonical string. -/
theorem generateKey_kwargs_perm_hash :
    (∀ (md5hex : String → String) (pfx : String) (args : List String)
        (kws₁ kws₂ : List (String × PyVal)),
      kws₁.Perm kws₂ → (kws₁.map Prod.fst).Nodup →
        generateKey md5hex pfx args kws₁ = generateKey md5hex pfx args kws₂) ∧
    (∀ (md5hex : String → String) (pfx : String) (args : List String)
        (kwargs : List (String × PyVal)),
      250 < (canonicalKeyData pfx args kwargs).length →
        generateKey md5hex pfx args kwargs =
          pfx ++ ":hash:" ++ md5hex (canonicalKeyData pfx args kwargs)) ∧
    (∀ (md5hex : String → String) (pfx : String) (args : List String)
        (kwargs : List (String × PyVal)),
      (canonicalKeyData pfx args kwargs).length ≤ 250 →
        generateKey md5hex pfx args kwargs = canonicalKeyData pfx args kwargs) := by
  refine ⟨?_, ?_, ?_⟩
  · intro md5hex pfx args kws₁ kws₂ hperm hnodup
    have hsort : jsonDumpsKwargsSorted kws₁ = jsonDumpsKwargsSorted kws₂ := by
      unfold jsonDumpsKwargsSorted
      rw [insertionSort_key_eq_of_perm kws₁ kws₂ hperm hnodup]
    have hemp : kws₁.isEmpty = kws₂.isEmpty := by
      rcases kws₁ with _ | ⟨a, l⟩ <;> rcases kws₂ with _ | ⟨b, m⟩
      · rfl
      · exact absurd hperm.length_eq (by simp)
      · exact absurd hperm.length_eq (by simp)
      · rfl
    have hkd : canonicalKeyData pfx args kws₁ = canonicalKeyData pfx args kws₂ := by
      unfold canonicalKeyData
      by_cases he : kws₂.isEmpty
      · rw [if_pos (hemp.trans he), if_pos he]
      · rw [if_neg (fun h => he (hemp.symm.trans h)), if_neg he, hsort]
    unfold generateKey
    rw [hkd]
  · intro md5hex pfx args kwargs hlong
    unfold generateKey
    rw [if_pos hlong]
  · intro md5hex pfx args kwargs hshort
    unfold generateKey
    rw [if_neg (by omega)]

set_option maxRecDepth 4000 in
/-- Witness for C9: swapping two keyword arguments leaves the key
unchanged, and an overlong canonical form takes the hashed shape. -/
theorem generateKey_kwargs_perm_hash_witness :
    generateKey (fun _ => "d") "p" ["x"] [("b", PyVal.int 1), ("a", PyVal.int 2)] =
      generateKey (fun _ => "d") "p" ["x"] [("a", PyVal.int 2), ("b", PyVal.int 1)] ∧
    generateKey (fun _ => "d") "p"
        [String.mk (List.replicate 260 'z')] [] =
      "p" ++ ":hash:" ++ "d" :=
  ⟨generateKey_kwargs_perm_hash.1 (fun _ => "d") "p" ["x"]
      [("b", PyVal.int 1), ("a", PyVal.int 2)] [("a", PyVal.int 2), ("b", PyVal.int 1)]
      (List.Perm.swap ("a", PyVal.int 2) ("b", PyVal.int 1) []) (by decide),
   generateKey_kwargs_perm_hash.2.1 (fun _ => "d") "p"
      [String.mk (List.replicate 260 'z')] [] (by decide)⟩

/-- Claim C10: after any `_set_local_cache` / `_set_l1_cache` insertion
into a store currently within its (positive) capacity, the store is
still within capacity: cleanup, then single-oldest eviction when full,
always frees a slot before the new entry lands.  The engine constructs
both stores with capacity 1000 and every insertion goes through these
functions, so the bound is an invariant. -/
theorem local_store_capacity_bound :
    ∀ (maxSize : Nat) (cache : LocalCache) (key : String) (v : PyVal) (ttl now : Nat),
      1 ≤ maxSize → cache.length ≤ maxSize →
      (∃ c, setLocalCache maxSize cache key v ttl now = some c ∧ c.length ≤ maxSize) ∧
      (∃ c, setL1Cache maxSize cache key v ttl now = some c ∧ c.length ≤ maxSize) := by
  intro maxSize cache key v ttl now hmax hlen
  constructor
  · have hclean : (cleanupLocalCache cache now).length ≤ cache.length :=
      List.length_filter_le _ _
    unfold setLocalCache
    by_cases hfull : maxSize ≤ (cleanupLocalCache cache now).length
    · have hne : cleanupLocalCache cache now ≠ [] := by
        intro he
        rw [he] at hfull
        simp at hfull
        omega
      obtain ⟨p, hp⟩ := oldestEntry_isSome _ hne
      rw [if_pos hfull, hp]
      refine ⟨_, rfl, ?_⟩
      have hdel := length_dictDel_lt (cleanupLocalCache cache now) p
        (oldestEntry_mem _ p hp)
      have hsetb := length_dictSet_le (dictDel (cleanupLocalCache cache now) p.1) key
        { value := v, createdAt := now, expiresAt := now + ttl }
      omega
    · rw [if_neg hfull]
      refine ⟨_, rfl, ?_⟩
      have hsetb := length_dictSet_le (cleanupLocalCache cache now) key
        { value := v, createdAt := now, expiresAt := now + ttl }
      omega
  · have hclean : (cleanupL1Cache cache now).length ≤ cache.length :=
      List.length_filter_le _ _
    unfold setL1Cache
    by_cases hfull : maxSize ≤ (cleanupL1Cache cache now).length
    · have hne : cleanupL1Cache cache now ≠ [] := by
        intro he
        rw [he] at hfull
        simp at hfull
        omega
      obtain ⟨p, hp⟩ := oldestEntry_isSome _ hne
      rw [if_pos hfull, hp]
      refine ⟨_, rfl, ?_⟩
      have hdel := length_dictDel_lt (cleanupL1Cache cache now) p
        (oldestEntry_mem _ p hp)
      have hsetb := length_dictSet_le (dictDel (cleanupL1Cache cache now) p.1) key
        { value := v, createdAt := now, expiresAt := now + ttl }
      omega
    · rw [if_neg hfull]
      refine ⟨_, rfl, ?_⟩
      have hsetb := length_dictSet_le (cleanupL1Cache cache now) key
        { value := v, createdAt := now, expiresAt := now + ttl }
      omega

/-- Witness for C10 at a full one-slot store. -/
theorem local_store_capacity_bound_witness :
    (∃ c, setLocalCache 1
        [("a", { value := .int 1, createdAt := 0, expiresAt := 100 })]
        "b" (.int 2) 50 5 = some c ∧ c.length ≤ 1) ∧
    (∃ c, setL1Cache 1
        [("a", { value := .int 1, createdAt := 0, expiresAt := 100 })]
        "b" (.int 2) 50 5 = some c ∧ c.length ≤ 1) :=
  local_store_capacity_bound 1
    [("a", { value := .int 1, createdAt := 0, expiresAt := 100 })]
    "b" (.int 2) 50 5 (by decide) (by decide)

/-- Claim C8: with at least two recorded accesses, `_calculate_ttl` is
exactly the bucketing of the mean inter-access interval (below 60s
gives 300s, below 300s gives 900s, below 1800s gives 3600s, else
7200s); with fewer than two it is the fixed 1800s default; the
bucketing is monotone, so a smaller mean interval never yields a larger
TTL; and `_record_access` keeps at most the last 100 observations. -/
theorem adaptive_ttl_buckets :
    (∀ times : List ℚ, 2 ≤ times.length →
      calculateTtl times = ttlBucket (meanInterval times)) ∧
    (∀ times : List ℚ, times.length < 2 → calculateTtl times = 1800) ∧
    (∀ a b : ℚ, a ≤ b → ttlBucket a ≤ ttlBucket b) ∧
    (∀ (pat : AccessPattern) (now : ℚ), pat.accessTimes.length ≤ 100 →
      (recordAccess pat now).accessTimes.length ≤ 100) := by
  refine ⟨?_, ?_, ?_, ?_⟩
  · intro times h
    unfold calculateTtl
    rw [if_neg (by omega)]
    rfl
  · intro times h
    unfold calculateTtl
    rw [if_pos h]
  · intro a b hab
    unfold ttlBucket
    split_ifs <;> first | omega | (exfalso; linarith)
  · intro pat now hlen
    simp only [recordAccess]
    by_cases hover : 100 < (pat.accessTimes ++ [now]).length
    · rw [if_pos hover]
      simp only [List.length_drop]
      omega
    · rw [if_neg hover]
      simp only [List.length_append, List.length_singleton] at hover ⊢
      omega

/-- Witness for C8: two accesses 30 seconds apart fall in the densest
bucket, one access takes the default, and the record of a 100-long
history stays at 100. -/
theorem adaptive_ttl_buckets_witness :
    calculateTtl [0, 30] = ttlBucket (meanInterval [0, 30]) ∧
    calculateTtl [5] = 1800 ∧
    ttlBucket 30 ≤ ttlBucket 400 ∧
    (recordAccess { count := 7, lastAccess := some 3,
                    accessTimes := List.replicate 100 3 } 4).accessTimes.length ≤ 100 :=
  ⟨adaptive_ttl_buckets.1 [0, 30] (by decide),
   adaptive_ttl_buckets.2.1 [5] (by decide),
   adaptive_ttl_buckets.2.2.1 30 400 (by norm_num),
   adaptive_ttl_buckets.2.2.2 _ 4 (by simp)⟩

theorem mlGetLoop_cons_miss (st st1 : MLState) (key : String)
    (allLevels rest : List CacheLevel) (lvl : CacheLevel) (now : Nat)
    (hget : getFromLevel st key lvl now = (.none, st1)) :
    mlGetLoop st key allLevels now (lvl :: rest) =
      mlGetLoop st1 key allLevels now rest := by
  rw [mlGetLoop, hget]

theorem mlGetLoop_cons_hit (st st1 : MLState) (key : String)
    (allLevels rest : List CacheLevel) (lvl : CacheLevel) (now : Nat) (v : PyVal)
    (hget : getFromLevel st key lvl now = (v, st1)) (hv : v ≠ .none) :
    mlGetLoop st key allLevels now (lvl :: rest) =
      match backfillCache st1 key v lvl allLevels now with
      | .ok st2 => (v, st2)
      | .error st2 => mlGetLoop st2 key allLevels now rest := by
  rw [mlGetLoop, hget]
  cases v with
  | none => exact absurd rfl hv
  | bool b => rfl
  | int n => rfl
  | str s => rfl
  | list xs => rfl
  | dict fs => rfl

/-- Fact: a tier read either leaves the state unchanged, or (lazy
expiry) deletes the key's stale L1 entry, in which case the read
missed and a re-read of the tier still misses. -/
theorem getL1Cache_state_cases (st : MLState) (key : String) (now : Nat) :
    (getL1Cache st key now).2 = st ∨
    ((getL1Cache st key now).2 = { st with l1Cache := dictDel st.l1Cache key } ∧
      (getL1Cache st key now).1 = PyVal.none ∧
      (getL1Cache { st with l1Cache := dictDel st.l1Cache key } key now).1 = PyVal.none) := by
  cases hlook : List.lookup key st.l1Cache with
  | none => left; simp [getL1Cache, hlook]
  | some item =>
    by_cases hexp : now < item.expiresAt
    · left; simp [getL1Cache, hlook, hexp]
    · right
      refine ⟨?_, ?_, ?_⟩
      · simp [getL1Cache, hlook, hexp]
      · simp [getL1Cache, hlook, hexp]
      · simp [getL1Cache, lookup_dictDel_self]

/-- Fact: `CacheManager.get` either leaves its state unchanged, or
deletes the key's stale local entry, in which case it returned
`default` and a re-read still returns `default`. -/
theorem cacheGet_state_cases (cm : CMState) (key : String) (dflt : PyVal) (now : Nat) :
    (cacheGet cm key dflt now).2 = cm ∨
    ((cacheGet cm key dflt now).2 = { cm with localCache := dictDel cm.localCache key } ∧
      (cacheGet cm key dflt now).1 = dflt ∧
      (cacheGet { cm with localCache := dictDel cm.localCache key } key dflt now).1 = dflt) := by
  cases hrc : cm.redisClient with
  | none =>
    cases hlook : List.lookup key cm.localCache with
    | none => left; simp [cacheGet, hrc, localFallback, hlook]
    | some item =>
      by_cases hexp : now < item.expiresAt
      · left; simp [cacheGet, hrc, localFallback, hlook, hexp]
      · right
        refine ⟨?_, ?_, ?_⟩ <;>
          simp [cacheGet, hrc, localFallback, hlook, hexp, lookup_dictDel_self]
  | some conn =>
    cases conn with
    | failing => left; simp [cacheGet, hrc]
    | ok store =>
      cases hs : List.lookup key store with
      | some e =>
        by_cases hel : now < e.expiresAt
        · left; simp [cacheGet, hrc, hs, hel]
        · cases hlook : List.lookup key cm.localCache with
          | none => left; simp [cacheGet, hrc, hs, hel, localFallback, hlook]
          | some item =>
            by_cases hexp : now < item.expiresAt
            · left; simp [cacheGet, hrc, hs, hel, localFallback, hlook, hexp]
            · right
              refine ⟨?_, ?_, ?_⟩ <;>
                simp [cacheGet, hrc, hs, hel, localFallback, hlook, hexp, lookup_dictDel_self]
      | none =>
        cases hlook : List.lookup key cm.localCache with
        | none => left; simp [cacheGet, hrc, hs, localFallback, hlook]
        | some item =>
          by_cases hexp : now < item.expiresAt
          · left; simp [cacheGet, hrc, hs, localFallback, hlook, hexp]
          · right
            refine ⟨?_, ?_, ?_⟩ <;>
              simp [cacheGet, hrc, hs, localFallback, hlook, hexp, lookup_dictDel_self]

/-- Fact: a tier read that returns a non-`None` value never mutates the
state (only stale-entry deletion mutates, and that path returns `None`). -/
theorem getFromLevel_hit_state (st : MLState) (key : String) (lvl : CacheLevel) (now : Nat)
    (h : (getFromLevel st key lvl now).1 ≠ PyVal.none) :
    (getFromLevel st key lvl now).2 = st := by
  cases lvl with
  | l1Memory =>
    rcases getL1Cache_state_cases st key now with h1 | ⟨_, h2, _⟩
    · exact h1
    · exact absurd h2 h
  | l2Redis =>
    have h2 : (cacheGet st.cm key .none now).1 ≠ PyVal.none := h
    have h3 : (cacheGet st.cm key .none now).2 = st.cm := by
      rcases cacheGet_state_cases st.cm key .none now with h1 | ⟨_, hv, _⟩
      · exact h1
      · exact absurd hv h2
    show { st with cm := (cacheGet st.cm key PyVal.none now).2 } = st
    rw [h3]
  | l3Database => exact absurd rfl h

/-- Fact: the value an L1 read returns depends only on the L1 store. -/
theorem getL1Cache_fst_congr (st1 st2 : MLState) (key : String) (now : Nat)
    (h : st1.l1Cache = st2.l1Cache) :
    (getL1Cache st1 key now).1 = (getL1Cache st2 key now).1 := by
  unfold getL1Cache
  rw [h]
  cases hl : List.lookup key st2.l1Cache with
  | none => rfl
  | some item =>
    by_cases hexp : now < item.expiresAt
    · simp [hexp]
    · simp [hexp]

/-- Fact: a missing tier read preserves every tier's read outcome at
the same key and time, as well as the capacities and the shared-tier
connection: the only mutation is deleting an entry that was already
unreadable. -/
theorem getFromLevel_miss_stable (st : MLState) (key : String) (lvl : CacheLevel) (now : Nat)
    (h1 : (getFromLevel st key lvl now).1 = PyVal.none) :
    (∀ lvl2, (getFromLevel (getFromLevel st key lvl now).2 key lvl2 now).1 =
      (getFromLevel st key lvl2 now).1) ∧
    (getFromLevel st key lvl now).2.maxL1Size = st.maxL1Size ∧
    (getFromLevel st key lvl now).2.cm.maxLocalCacheSize = st.cm.maxLocalCacheSize ∧
    (getFromLevel st key lvl now).2.cm.redisClient = st.cm.redisClient := by
  cases lvl with
  | l3Database => exact ⟨fun _ => rfl, rfl, rfl, rfl⟩
  | l1Memory =>
    rcases getL1Cache_state_cases st key now with hcase | ⟨hst, _, hre⟩
    · have h2 : (getFromLevel st key .l1Memory now).2 = st := hcase
      rw [h2]
      exact ⟨fun _ => rfl, rfl, rfl, rfl⟩
    · have h2 : (getFromLevel st key .l1Memory now).2 =
          { st with l1Cache := dictDel st.l1Cache key } := hst
      rw [h2]
      refine ⟨?_, rfl, rfl, rfl⟩
      intro lvl2
      cases lvl2 with
      | l1Memory => exact hre.trans h1.symm
      | l2Redis => rfl
      | l3Database => rfl
  | l2Redis =>
    rcases cacheGet_state_cases st.cm key .none now with hcase | ⟨hst, _, hre⟩
    · have h2 : (getFromLevel st key .l2Redis now).2 = st := by
        show { st with cm := (cacheGet st.cm key PyVal.none now).2 } = st
        rw [hcase]
      rw [h2]
      exact ⟨fun _ => rfl, rfl, rfl, rfl⟩
    · have h2 : (getFromLevel st key .l2Redis now).2 =
          { st with cm := { st.cm with localCache := dictDel st.cm.localCache key } } := by
        show { st with cm := (cacheGet st.cm key PyVal.none now).2 } = _
        rw [hst]
      rw [h2]
      refine ⟨?_, rfl, rfl, rfl⟩
      intro lvl2
      cases lvl2 with
      | l1Memory => exact getL1Cache_fst_congr _ st key now rfl
      | l2Redis => exact hre.trans h1.symm
      | l3Database => rfl

/-- Fact: walking a list of missing tiers evolves the state without
changing any read outcome, the capacities, or the shared connection. -/
theorem mlGetLoop_pre_miss (key : String) (now : Nat) (all : List CacheLevel) :
    ∀ (pre : List CacheLevel) (st : MLState) (rest : List CacheLevel),
      (∀ l ∈ pre, (getFromLevel st key l now).1 = PyVal.none) →
      ∃ stk, mlGetLoop st key all now (pre ++ rest) = mlGetLoop stk key all now rest ∧
        (∀ l2, (getFromLevel stk key l2 now).1 = (getFromLevel st key l2 now).1) ∧
        stk.maxL1Size = st.maxL1Size ∧
        stk.cm.maxLocalCacheSize = st.cm.maxLocalCacheSize ∧
        stk.cm.redisClient = st.cm.redisClient := by
  intro pre
  induction pre with
  | nil =>
    intro st rest _
    exact ⟨st, rfl, fun _ => rfl, rfl, rfl, rfl⟩
  | cons l pre ih =>
    intro st rest hmiss
    have hl : (getFromLevel st key l now).1 = PyVal.none :=
      hmiss l (List.mem_cons_self _ _)
    have hpair : getFromLevel st key l now =
        (PyVal.none, (getFromLevel st key l now).2) := by
      rw [← hl]
    have hstep : mlGetLoop st key all now ((l :: pre) ++ rest) =
        mlGetLoop (getFromLevel st key l now).2 key all now (pre ++ rest) :=
      mlGetLoop_cons_miss st _ key all (pre ++ rest) l now hpair
    obtain ⟨hstab, hm1, hm2, hrc⟩ := getFromLevel_miss_stable st key l now hl
    have hmiss2 : ∀ x ∈ pre,
        (getFromLevel (getFromLevel st key l now).2 key x now).1 = PyVal.none :=
      fun x hx => (hstab x).trans (hmiss x (List.mem_cons_of_mem _ hx))
    obtain ⟨stk, hh1, hh2, hh3, hh4, hh5⟩ := ih (getFromLevel st key l now).2 rest hmiss2
    exact ⟨stk, hstep.trans hh1, fun l2 => (hh2 l2).trans (hstab l2),
      hh3.trans hm1, hh4.trans hm2, hh5.trans hrc⟩

/-- Fact: Python `list.index` of the first hit tier, when the earlier
tiers are all different, is the prefix length. -/
theorem indexOf_append_cons_self (pre post : List CacheLevel) (lvl : CacheLevel)
    (h : lvl ∉ pre) : (pre ++ lvl :: post).indexOf lvl = pre.length := by
  induction pre with
  | nil => simp [List.indexOf_cons]
  | cons b pre ih =>
    have hb : (b == lvl) = false := by
      have hne : b ≠ lvl := fun e => h (e ▸ List.mem_cons_self b pre)
      exact beq_eq_false_iff_ne.mpr hne
    simp [List.indexOf_cons, hb, ih (fun hm => h (List.mem_cons_of_mem _ hm))]

/-- Fact: any list either satisfies a predicate everywhere or splits at
its first failure. -/
theorem all_or_first_fail {α : Type} (P : α → Prop) :
    ∀ l : List α, (∀ x ∈ l, P x) ∨
      ∃ pre y post, l = pre ++ y :: post ∧ (∀ x ∈ pre, P x) ∧ ¬P y := by
  intro l
  induction l with
  | nil => left; simp
  | cons a l ih =>
    by_cases ha : P a
    · rcases ih with hall | ⟨pre, y, post, heq, hpre, hy⟩
      · left
        intro x hx
        rcases List.mem_cons.mp hx with rfl | hx2
        · exact ha
        · exact hall x hx2
      · right
        refine ⟨a :: pre, y, post, by rw [heq]; rfl, ?_, hy⟩
        intro x hx
        rcases List.mem_cons.mp hx with rfl | hx2
        · exact ha
        · exact hpre x hx2
    · right
      exact ⟨[], a, l, rfl, by simp, ha⟩

/-- Fact: with positive capacities, backfilling a list of tiers never
raises, and afterwards every L1 in the list holds the value with L1's
default TTL and every L2 in the list holds it with L2's default TTL —
in the shared store (serialized) when the connection is up, in the
CacheManager local store when unconfigured, and nowhere when the
connection raises (fail-open).  Tiers not in the list are untouched. -/
theorem backfillLoop_writes (key : String) (v : PyVal) (now : Nat) :
    ∀ (ws : List CacheLevel) (st : MLState),
      1 ≤ st.maxL1Size → 1 ≤ st.cm.maxLocalCacheSize →
      ∃ st2, backfillLoop st key v now ws = .ok st2 ∧
        st2.maxL1Size = st.maxL1Size ∧
        st2.cm.maxLocalCacheSize = st.cm.maxLocalCacheSize ∧
        (CacheLevel.l1Memory ∈ ws →
          List.lookup key st2.l1Cache =
            some { value := v, createdAt := now,
                   expiresAt := now + defaultTtl .l1Memory }) ∧
        (CacheLevel.l1Memory ∉ ws → st2.l1Cache = st.l1Cache) ∧
        (st.cm.redisClient = Option.none →
          st2.cm.redisClient = Option.none ∧
          (CacheLevel.l2Redis ∈ ws →
            List.lookup key st2.cm.localCache =
              some { value := v, createdAt := now,
                     expiresAt := now + defaultTtl .l2Redis }) ∧
          (CacheLevel.l2Redis ∉ ws → st2.cm.localCache = st.cm.localCache)) ∧
        (∀ s, st.cm.redisClient = some (.ok s) →
          ∃ s2, st2.cm.redisClient = some (.ok s2) ∧
            (CacheLevel.l2Redis ∈ ws →
              List.lookup key s2 =
                some { value := pySerialize v,
                       expiresAt := now + defaultTtl .l2Redis }) ∧
            (CacheLevel.l2Redis ∉ ws → s2 = s)) ∧
        (st.cm.redisClient = some .failing → st2.cm = st.cm) := by
  intro ws
  induction ws with
  | nil =>
    intro st _ _
    exact ⟨st, rfl, rfl, rfl, by simp, fun _ => rfl,
      fun hrc => ⟨hrc, by simp, fun _ => rfl⟩,
      fun s hs => ⟨s, hs, by simp, fun _ => rfl⟩, fun _ => rfl⟩
  | cons w ws ih =>
    intro st hmax1 hmax2
    cases w with
    | l1Memory =>
      obtain ⟨c, hc, hlook⟩ :=
        setL1Cache_lookup st.maxL1Size st.l1Cache key v (defaultTtl .l1Memory) now hmax1
      have hstep : setToLevel st key v (defaultTtl .l1Memory) .l1Memory now =
          .ok { st with l1Cache := c } := by
        simp [setToLevel, hc]
      obtain ⟨st2, hb, hm1, hm2, hw1, hw1n, hwnone, hwok, hwfail⟩ :=
        ih { st with l1Cache := c } hmax1 hmax2
      refine ⟨st2, ?_, hm1, hm2, ?_, ?_, ?_, ?_, hwfail⟩
      · simp only [backfillLoop, hstep, hb]
      · intro _
        by_cases hmem : CacheLevel.l1Memory ∈ ws
        · exact hw1 hmem
        · rw [hw1n hmem]
          exact hlook
      · intro hnot
        exact absurd (List.mem_cons_self _ _) hnot
      · intro hrc
        obtain ⟨ha, hbm, hcn⟩ := hwnone hrc
        refine ⟨ha, ?_, ?_⟩
        · intro hmem
          rcases List.mem_cons.mp hmem with heq | hm
          · exact absurd heq (by simp)
          · exact hbm hm
        · intro hnot
          exact hcn (fun hm => hnot (List.mem_cons_of_mem _ hm))
      · intro s hs
        obtain ⟨s2, ha, hbm, hcn⟩ := hwok s hs
        refine ⟨s2, ha, ?_, ?_⟩
        · intro hmem
          rcases List.mem_cons.mp hmem with heq | hm
          · exact absurd heq (by simp)
          · exact hbm hm
        · intro hnot
          exact hcn (fun hm => hnot (List.mem_cons_of_mem _ hm))
    | l2Redis =>
      cases hrc : st.cm.redisClient with
      | none =>
        obtain ⟨c, hc, hlook⟩ :=
          setLocalCache_lookup st.cm.maxLocalCacheSize st.cm.localCache key v
            (defaultTtl .l2Redis) now hmax2
        have hcm : cmSet st.cm key v (defaultTtl .l2Redis) now =
            (true, { redisClient := Option.none, localCache := c,
                     maxLocalCacheSize := st.cm.maxLocalCacheSize }) := by
          unfold cmSet
          rw [hrc, hc]
        have hstep : setToLevel st key v (defaultTtl .l2Redis) .l2Redis now =
            .ok { st with cm := { redisClient := Option.none, localCache := c,
                                  maxLocalCacheSize := st.cm.maxLocalCacheSize } } := by
          simp [setToLevel, hcm]
        obtain ⟨st2, hb, hm1, hm2, hw1, hw1n, hwnone, hwok, hwfail⟩ :=
          ih { st with cm := { redisClient := Option.none, localCache := c,
                               maxLocalCacheSize := st.cm.maxLocalCacheSize } } hmax1 hmax2
        refine ⟨st2, ?_, hm1, hm2, ?_, ?_, ?_, ?_, ?_⟩
        · simp only [backfillLoop, hstep, hb]
        · intro hmem
          rcases List.mem_cons.mp hmem with heq | hm
          · exact absurd heq (by simp)
          · exact hw1 hm
        · intro hnot
          exact hw1n (fun hm => hnot (List.mem_cons_of_mem _ hm))
        · intro _
          obtain ⟨ha, hbm, hcn⟩ := hwnone rfl
          refine ⟨ha, ?_, ?_⟩
          · intro _
            by_cases hmem : CacheLevel.l2Redis ∈ ws
            · exact hbm hmem
            · rw [hcn hmem]
              exact hlook
          · intro hnot
            exact absurd (List.mem_cons_self _ _) hnot
        · intro s hs
          exact absurd hs (by simp)
        · intro hf
          exact absurd hf (by simp)
      | some conn =>
       cases conn with
       | ok s0 =>
        have hcm : cmSet st.cm key v (defaultTtl .l2Redis) now =
            (true, { st.cm with redisClient := some (.ok (dictSet s0 key { value := pySerialize v, expiresAt := now + defaultTtl .l2Redis })) }) := by
          unfold cmSet
          rw [hrc]
        have hstep : setToLevel st key v (defaultTtl .l2Redis) .l2Redis now =
            .ok { st with cm := { st.cm with redisClient := some (.ok (dictSet s0 key { value := pySerialize v, expiresAt := now + defaultTtl .l2Redis })) } } := by
          simp [setToLevel, hcm]
        obtain ⟨st2, hb, hm1, hm2, hw1, hw1n, hwnone, hwok, hwfail⟩ :=
          ih { st with cm := { st.cm with redisClient := some (.ok (dictSet s0 key { value := pySerialize v, expiresAt := now + defaultTtl .l2Redis })) } }
            hmax1 hmax2
        refine ⟨st2, ?_, hm1, hm2, ?_, ?_, ?_, ?_, ?_⟩
        · simp only [backfillLoop, hstep, hb]
        · intro hmem
          rcases List.mem_cons.mp hmem with heq | hm
          · exact absurd heq (by simp)
          · exact hw1 hm
        · intro hnot
          exact hw1n (fun hm => hnot (List.mem_cons_of_mem _ hm))
        · intro hnone
          exact absurd hnone (by simp)
        · intro s hs
          have hs0 : s0 = s := RedisConn.ok.inj (Option.some.inj hs)
          obtain ⟨s2, ha, hbm, hcn⟩ := hwok
            (dictSet s0 key { value := pySerialize v, expiresAt := now + defaultTtl .l2Redis }) rfl
          refine ⟨s2, ha, ?_, ?_⟩
          · intro _
            by_cases hmem : CacheLevel.l2Redis ∈ ws
            · exact hbm hmem
            · rw [hcn hmem]
              exact lookup_dictSet_self _ _ _
          · intro hnot
            exact absurd (List.mem_cons_self _ _) hnot
        · intro hf
          exact absurd hf (by simp)
       | failing =>
        have hcm : cmSet st.cm key v (defaultTtl .l2Redis) now = (false, st.cm) := by
          unfold cmSet
          rw [hrc]
        have hstep : setToLevel st key v (defaultTtl .l2Redis) .l2Redis now = .ok st := by
          simp [setToLevel, hcm]
        obtain ⟨st2, hb, hm1, hm2, hw1, hw1n, hwnone, hwok, hwfail⟩ := ih st hmax1 hmax2
        refine ⟨st2, ?_, hm1, hm2, ?_, ?_, ?_, ?_, ?_⟩
        · simp only [backfillLoop, hstep, hb]
        · intro hmem
          rcases List.mem_cons.mp hmem with heq | hm
          · exact absurd heq (by simp)
          · exact hw1 hm
        · intro hnot
          exact hw1n (fun hm => hnot (List.mem_cons_of_mem _ hm))
        · intro hnone
          exact absurd hnone (by simp)
        · intro s hs
          exact absurd hs (by simp)
        · intro _
          exact hwfail hrc
    | l3Database =>
      have hstep : setToLevel st key v (defaultTtl .l3Database) .l3Database now = .ok st := rfl
      obtain ⟨st2, hb, hm1, hm2, hw1, hw1n, hwnone, hwok, hwfail⟩ := ih st hmax1 hmax2
      refine ⟨st2, ?_, hm1, hm2, ?_, ?_, ?_, ?_, hwfail⟩
      · simp only [backfillLoop, hstep, hb]
      · intro hmem
        rcases List.mem_cons.mp hmem with heq | hm
        · exact absurd heq (by simp)
        · exact hw1 hm
      · intro hnot
        exact hw1n (fun hm => hnot (List.mem_cons_of_mem _ hm))
      · intro hrc
        obtain ⟨ha, hbm, hcn⟩ := hwnone hrc
        refine ⟨ha, ?_, ?_⟩
        · intro hmem
          rcases List.mem_cons.mp hmem with heq | hm
          · exact absurd heq (by simp)
          · exact hbm hm
        · intro hnot
          exact hcn (fun hm => hnot (List.mem_cons_of_mem _ hm))
      · intro s hs
        obtain ⟨s2, ha, hbm, hcn⟩ := hwok s hs
        refine ⟨s2, ha, ?_, ?_⟩
        · intro hmem
          rcases List.mem_cons.mp hmem with heq | hm
          · exact absurd heq (by simp)
          · exact hbm hm
        · intro hnot
          exact hcn (fun hm => hnot (List.mem_cons_of_mem _ hm))

/-- Fact: the general first-hit behaviour of `MultiLevelCache.get`
over an arbitrary tier list `pre ++ lvl :: post`: when every tier of
`pre` misses and `lvl` hits, the hit value is returned, and every L1
(resp. L2) occurring in `pre` ends up holding the value with that
tier's default TTL. -/
theorem mlGet_first_hit (pre post : List CacheLevel) (lvl : CacheLevel) (st : MLState)
    (key : String) (now : Nat)
    (hmax1 : 1 ≤ st.maxL1Size) (hmax2 : 1 ≤ st.cm.maxLocalCacheSize)
    (hpre : ∀ l ∈ pre, (getFromLevel st key l now).1 = PyVal.none)
    (hhit : (getFromLevel st key lvl now).1 ≠ PyVal.none) :
    (mlGet st key (pre ++ lvl :: post) now).1 = (getFromLevel st key lvl now).1 ∧
    (CacheLevel.l1Memory ∈ pre →
      List.lookup key (mlGet st key (pre ++ lvl :: post) now).2.l1Cache =
        some { value := (getFromLevel st key lvl now).1, createdAt := now,
               expiresAt := now + defaultTtl .l1Memory }) ∧
    (st.cm.redisClient = Option.none → CacheLevel.l2Redis ∈ pre →
      List.lookup key (mlGet st key (pre ++ lvl :: post) now).2.cm.localCache =
        some { value := (getFromLevel st key lvl now).1, createdAt := now,
               expiresAt := now + defaultTtl .l2Redis }) ∧
    (∀ s, st.cm.redisClient = some (.ok s) → CacheLevel.l2Redis ∈ pre →
      ∃ s2, (mlGet st key (pre ++ lvl :: post) now).2.cm.redisClient = some (.ok s2) ∧
        List.lookup key s2 =
          some { value := pySerialize ((getFromLevel st key lvl now).1),
                 expiresAt := now + defaultTtl .l2Redis }) := by
  have hnot : lvl ∉ pre := fun hm => hhit (hpre lvl hm)
  obtain ⟨stk, hloop, hstab, hk1, hk2, hk3⟩ :=
    mlGetLoop_pre_miss key now (pre ++ lvl :: post) pre st (lvl :: post) hpre
  have hhit2 : (getFromLevel stk key lvl now).1 = (getFromLevel st key lvl now).1 :=
    hstab lvl
  have hhitk : (getFromLevel stk key lvl now).1 ≠ PyVal.none := by
    rw [hhit2]
    exact hhit
  have hstate := getFromLevel_hit_state stk key lvl now hhitk
  have hpairk : getFromLevel stk key lvl now = ((getFromLevel st key lvl now).1, stk) := by
    have hsplit : getFromLevel stk key lvl now =
        ((getFromLevel stk key lvl now).1, (getFromLevel stk key lvl now).2) := rfl
    rw [hsplit, hhit2, hstate]
  have hconshit := mlGetLoop_cons_hit stk stk key (pre ++ lvl :: post) post lvl now
    ((getFromLevel st key lvl now).1) hpairk hhit
  have hidx : (pre ++ lvl :: post).indexOf lvl = pre.length :=
    indexOf_append_cons_self pre post lvl hnot
  obtain ⟨st2, hbl, hm1, hm2, hw1, hw1n, hwnone, hwok, hwfail⟩ :=
    backfillLoop_writes key ((getFromLevel st key lvl now).1) now pre stk
      (by rw [hk1]; exact hmax1) (by rw [hk2]; exact hmax2)
  have hbf : backfillCache stk key ((getFromLevel st key lvl now).1) lvl
      (pre ++ lvl :: post) now = .ok st2 := by
    simp only [backfillCache]
    rw [hidx, List.take_left]
    exact hbl
  have hml : mlGet st key (pre ++ lvl :: post) now =
      ((getFromLevel st key lvl now).1, st2) := by
    rw [mlGet, hloop, hconshit, hbf]
  refine ⟨by rw [hml], ?_, ?_, ?_⟩
  · intro hmem
    rw [hml]
    exact hw1 hmem
  · intro hrc hmem
    have hrck : stk.cm.redisClient = Option.none := by
      rw [hk3]
      exact hrc
    obtain ⟨_, hbm, _⟩ := hwnone hrck
    rw [hml]
    exact hbm hmem
  · intro s hs hmem
    have hsk : stk.cm.redisClient = some (.ok s) := by
      rw [hk3]
      exact hs
    obtain ⟨s2, ha, hbm, _⟩ := hwok s hsk
    rw [hml]
    exact ⟨s2, ha, hbm hmem⟩

/-- Fact: when every listed tier misses, `MultiLevelCache.get` returns
Python `None`. -/
theorem mlGet_all_miss (levels : List CacheLevel) (st : MLState) (key : String) (now : Nat)
    (h : ∀ lvl ∈ levels, (getFromLevel st key lvl now).1 = PyVal.none) :
    (mlGet st key levels now).1 = PyVal.none := by
  obtain ⟨stk, hloop, _, _, _, _⟩ := mlGetLoop_pre_miss key now levels levels st [] h
  rw [List.append_nil] at hloop
  rw [mlGet, hloop]
  rfl

/-- Fact: with positive capacities, `MultiLevelCache.get` returns
`None` exactly when every listed tier misses. -/
theorem mlGet_none_iff (levels : List CacheLevel) (st : MLState) (key : String) (now : Nat)
    (hmax1 : 1 ≤ st.maxL1Size) (hmax2 : 1 ≤ st.cm.maxLocalCacheSize) :
    ((mlGet st key levels now).1 = PyVal.none ↔
      ∀ lvl ∈ levels, (getFromLevel st key lvl now).1 = PyVal.none) := by
  constructor
  · intro hres
    by_contra hnot
    rcases all_or_first_fail (fun l => (getFromLevel st key l now).1 = PyVal.none)
        levels with hall | ⟨pre, y, post, heq, hpre, hy⟩
    · exact hnot hall
    · have hv := (mlGet_first_hit pre post y st key now hmax1 hmax2 hpre hy).1
      rw [heq] at hres
      exact hy (hv.symm.trans hres)
  · exact mlGet_all_miss levels st key now

/-- Claim C4: `MultiLevelCache.get` visits the caller-supplied tier
list in order.  Part 1: if every listed tier misses, the result is
`None`.  Part 2 (general first hit, any list `pre ++ lvl :: post`):
when every tier before `lvl` misses and `lvl` holds a non-`None`
value, that value is returned, and before the return every L1 in the
prefix holds it with L1's default TTL (300s) and every L2 in the
prefix holds it with L2's default TTL (1800s) — serialized on a
reachable shared store, raw in the CacheManager local store when the
shared tier is unconfigured.  Part 3: with positive capacities,
not-found is returned exactly when every listed tier misses.  Part 4,
the claim's concrete instance on the default `[L1, L2]` list: a value
present only in L2 is returned and a subsequent direct L1 read also
returns it. -/
theorem mlGet_order_backfill :
    (∀ (levels : List CacheLevel) (st : MLState) (key : String) (now : Nat),
      (∀ lvl ∈ levels, (getFromLevel st key lvl now).1 = PyVal.none) →
        (mlGet st key levels now).1 = PyVal.none) ∧
    (∀ (pre post : List CacheLevel) (lvl : CacheLevel) (st : MLState)
        (key : String) (now : Nat),
      1 ≤ st.maxL1Size → 1 ≤ st.cm.maxLocalCacheSize →
      (∀ l ∈ pre, (getFromLevel st key l now).1 = PyVal.none) →
      (getFromLevel st key lvl now).1 ≠ PyVal.none →
        (mlGet st key (pre ++ lvl :: post) now).1 = (getFromLevel st key lvl now).1 ∧
        (CacheLevel.l1Memory ∈ pre →
          List.lookup key (mlGet st key (pre ++ lvl :: post) now).2.l1Cache =
            some { value := (getFromLevel st key lvl now).1, createdAt := now,
                   expiresAt := now + defaultTtl .l1Memory }) ∧
        (st.cm.redisClient = Option.none → CacheLevel.l2Redis ∈ pre →
          List.lookup key (mlGet st key (pre ++ lvl :: post) now).2.cm.localCache =
            some { value := (getFromLevel st key lvl now).1, createdAt := now,
                   expiresAt := now + defaultTtl .l2Redis }) ∧
        (∀ s, st.cm.redisClient = some (.ok s) → CacheLevel.l2Redis ∈ pre →
          ∃ s2, (mlGet st key (pre ++ lvl :: post) now).2.cm.redisClient = some (.ok s2) ∧
            List.lookup key s2 =
              some { value := pySerialize ((getFromLevel st key lvl now).1),
                     expiresAt := now + defaultTtl .l2Redis })) ∧
    (∀ (levels : List CacheLevel) (st : MLState) (key : String) (now : Nat),
      1 ≤ st.maxL1Size → 1 ≤ st.cm.maxLocalCacheSize →
        ((mlGet st key levels now).1 = PyVal.none ↔
          ∀ lvl ∈ levels, (getFromLevel st key lvl now).1 = PyVal.none)) ∧
    (∀ (st : MLState) (key : String) (now : Nat) (e : CacheEntry),
      st.cm.redisClient = Option.none →
      List.lookup key st.l1Cache = Option.none →
      List.lookup key st.cm.localCache = some e →
      now < e.expiresAt →
      e.value ≠ PyVal.none →
      1 ≤ st.maxL1Size →
        (mlGet st key defaultLevels now).1 = e.value ∧
        (getL1Cache (mlGet st key defaultLevels now).2 key now).1 = e.value) := by
  refine ⟨mlGet_all_miss, ?_, mlGet_none_iff, ?_⟩
  · intro pre post lvl st key now h1 h2 h3 h4
    exact mlGet_first_hit pre post lvl st key now h1 h2 h3 h4
  · intro st key now e hrc hl1 hlocal hexp hvne hmax
    have hgetl1 : getFromLevel st key .l1Memory now = (.none, st) := by
      simp [getFromLevel, getL1Cache, hl1]
    have hgetcm : cacheGet st.cm key .none now = (e.value, st.cm) := by
      simp [cacheGet, hrc, localFallback, hlocal, hexp]
    have hgetl2 : getFromLevel st key .l2Redis now = (e.value, st) := by
      simp [getFromLevel, hgetcm]
    obtain ⟨c, hc, hlook⟩ :=
      setL1Cache_lookup st.maxL1Size st.l1Cache key e.value 300 now hmax
    have hstl : setToLevel st key e.value (defaultTtl .l1Memory) .l1Memory now =
        .ok { st with l1Cache := c } := by
      simp [setToLevel, defaultTtl, hc]
    have hbf : backfillCache st key e.value .l2Redis [.l1Memory, .l2Redis] now =
        .ok { st with l1Cache := c } := by
      show backfillLoop st key e.value now [.l1Memory] = _
      simp only [backfillLoop, hstl]
    have hml : mlGet st key defaultLevels now = (e.value, { st with l1Cache := c }) := by
      rw [mlGet, show (defaultLevels : List CacheLevel) = [.l1Memory, .l2Redis] from rfl,
        mlGetLoop_cons_miss st st key _ [.l2Redis] .l1Memory now hgetl1,
        mlGetLoop_cons_hit st st key _ [] .l2Redis now e.value hgetl2 hvne, hbf]
    refine ⟨by rw [hml], ?_⟩
    rw [hml]
    simp [getL1Cache, hlook]

/-- Witness for C4: a value present only in the L2 tier (degraded
`CacheManager`, value in its local store) is returned by the `[L1, L2]`
read both through the concrete-instance part and the general
first-hit part, which also leaves the backfilled L1 entry carrying
L1's default TTL of 300 seconds. -/
theorem mlGet_order_backfill_witness :
    (mlGet { cm := { redisClient := Option.none,
                     localCache := [("k", { value := .int 5, createdAt := 0, expiresAt := 50 })],
                     maxLocalCacheSize := 1000 },
             l1Cache := [], maxL1Size := 1000 } "k" defaultLevels 1).1 = PyVal.int 5 ∧
    (getL1Cache (mlGet { cm := { redisClient := Option.none,
                                 localCache := [("k", { value := .int 5, createdAt := 0, expiresAt := 50 })],
                                 maxLocalCacheSize := 1000 },
                         l1Cache := [], maxL1Size := 1000 } "k" defaultLevels 1).2
        "k" 1).1 = PyVal.int 5 ∧
    List.lookup "k" (mlGet { cm := { redisClient := Option.none,
                                     localCache := [("k", { value := .int 5, createdAt := 0, expiresAt := 50 })],
                                     maxLocalCacheSize := 1000 },
                             l1Cache := [], maxL1Size := 1000 }
        "k" [CacheLevel.l1Memory, CacheLevel.l2Redis] 1).2.l1Cache =
      some { value := PyVal.int 5, createdAt := 1, expiresAt := 1 + defaultTtl .l1Memory } := by
  have hd := mlGet_order_backfill.2.2.2
    { cm := { redisClient := Option.none,
              localCache := [("k", { value := .int 5, createdAt := 0, expiresAt := 50 })],
              maxLocalCacheSize := 1000 },
      l1Cache := [], maxL1Size := 1000 } "k" 1
    { value := .int 5, createdAt := 0, expiresAt := 50 }
    rfl rfl rfl (by decide) (fun h => PyVal.noConfusion h) (by decide)
  have hb := mlGet_order_backfill.2.1 [CacheLevel.l1Memory] [] CacheLevel.l2Redis
    { cm := { redisClient := Option.none,
              localCache := [("k", { value := .int 5, createdAt := 0, expiresAt := 50 })],
              maxLocalCacheSize := 1000 },
      l1Cache := [], maxL1Size := 1000 } "k" 1
    (by decide) (by decide)
    (by
      intro l hl
      rw [List.mem_singleton.mp hl]
      rfl)
    (fun h => PyVal.noConfusion h)
  exact ⟨hd.1, hd.2, hb.2.1 (List.mem_cons_self _ _)⟩

end EnhancePrompt
